import Mathlib

/-!
Verification development for the LinkTraverse kinematics core
(src/Body/LinkTraverse.cpp).

The mechanism is a tree of links.  A link is identified by a natural
number, belongs to a mechanism ("body", also a natural number), and its
children are ordered as in the sibling linked list of the source.  A
reference link inside a tree is represented as a zipper: the subtree
rooted at the reference link together with the list of ancestor
contexts, from the immediate parent up to the structural root.  Each
ancestor context records the full ordered children list of that
ancestor, so that the exclusion test `child != prev` of the source can
be expressed by identifier comparison (pointer identity corresponds to
identifier equality on trees with no duplicate identifiers).
-/

namespace Cnoid

/-- A subtree of the mechanism: link identifier, body membership and the
ordered list of child subtrees (the child/sibling linked list). -/
inductive Tree where
  | node (ident : Nat) (body : Nat) (children : List Tree)

/-- Identifier of the root link of a subtree. -/
def Tree.ident : Tree → Nat
  | .node i _ _ => i

/-- Body membership of the root link of a subtree. -/
def Tree.body : Tree → Nat
  | .node _ b _ => b

/-- Child subtrees of the root link of a subtree. -/
def Tree.children : Tree → List Tree
  | .node _ _ cs => cs

/-- Ancestor context of a zipper: the data of one ancestor link.  The
`children` field lists all child subtrees of that ancestor, including
the subtree the zipper focus lies in. -/
structure Ctx where
  ident : Nat
  body : Nat
  children : List Tree

/-- Reconstruction of the whole mechanism tree from a zipper.  When the
context is nonempty the focused subtree is already an element of the
children of the first ancestor, so it is not re-attached. -/
def plug : Tree → List Ctx → Tree
  | t, [] => t
  | _, c :: rest => plug (.node c.ident c.body c.children) rest

/-- Well-formedness of a zipper: every focused subtree is literally one
of the children recorded in its parent context. -/
def ZWF : Tree → List Ctx → Prop
  | _, [] => True
  | t, c :: rest => t ∈ c.children ∧ ZWF (.node c.ident c.body c.children) rest

mutual

/-- Preorder listing of all link identifiers of a subtree. -/
def Tree.preorder : Tree → List Nat
  | .node i _ cs => i :: Tree.forestPreorder cs

/-- Preorder listing of all link identifiers of a list of subtrees. -/
def Tree.forestPreorder : List Tree → List Nat
  | [] => []
  | t :: ts => Tree.preorder t ++ Tree.forestPreorder ts

end

/-- State owned by a LinkTraverse object: the ordered link sequence
`links_` and the signed counter `numUpwardConnections` (an `int` in the
source, hence modelled by `Int`). -/
structure TravState where
  links_ : List Nat
  numUpwardConnections : Int
deriving DecidableEq

mutual

/-- Model of `LinkTraverse::traverse`.  The C++ function receives a link
pointer; here the link is given as a zipper (subtree plus ancestor
contexts).  The body follows the source line by line: push the link and
count the upward arrival, then recurse on the parent when `doUpward` is
set and the parent belongs to the same body (the third argument of the
upward recursive call is the literal `true` of the source), then
recurse on every child different from `prev` when `doDownward` is
set. -/
def traverse (t : Tree) (as : List Ctx) (doUpward doDownward isUpward : Bool)
    (prev : Option Nat) (st : TravState) : TravState :=
  match t with
  | .node i b cs =>
    let st1 : TravState :=
      ⟨st.links_ ++ [i],
       if isUpward then st.numUpwardConnections + 1 else st.numUpwardConnections⟩
    let st2 : TravState :=
      match as with
      | c :: rest =>
        if hup : doUpward = true ∧ c.body = b then
          traverse (.node c.ident c.body c.children) rest doUpward true true (some i) st1
        else st1
      | [] => st1
    if doDownward then traverseChildren cs (⟨i, b, cs⟩ :: as) prev st2 else st2
termination_by ((if doUpward then as.length + 1 else 0), sizeOf t)
decreasing_by
  · simp_wf
    obtain ⟨h1, h2⟩ := hup
    subst h1
    apply Prod.Lex.left
    first
    | omega
    | simp <;> omega
  · simp_wf
    rcases doUpward with _ | _
    · apply Prod.Lex.right
      first
    | omega
    | simp <;> omega
    · apply Prod.Lex.left
      first
    | omega
    | simp <;> omega

/-- Model of the child loop of `LinkTraverse::traverse`: iterate over
the sibling list, skipping the child equal to `prev`, and recurse with
`doUpward = false`, `isUpward = false` and a null `prev`. -/
def traverseChildren (cs : List Tree) (ctx : List Ctx) (prev : Option Nat)
    (st : TravState) : TravState :=
  match cs with
  | [] => st
  | child :: rest =>
    let st1 : TravState :=
      if prev ≠ some child.ident then
        traverse child ctx false true false none st
      else st
    traverseChildren rest ctx prev st1
termination_by (0, sizeOf cs)
decreasing_by
  · simp_wf
    apply Prod.Lex.right
    first
    | omega
    | simp <;> omega
  · simp_wf
    apply Prod.Lex.right
    first
    | omega
    | simp <;> omega

end

/-- Model of `LinkTraverse::find`: the sequence is cleared and the
upward counter reset to zero, then `traverse` starts from the reference
link with `isUpward = false` and a null `prev`. -/
def find (t : Tree) (as : List Ctx) (doUpward doDownward : Bool) : TravState :=
  traverse t as doUpward doDownward false none ⟨[], 0⟩

/-- Model of `LinkTraverse::append`. -/
def append (st : TravState) (link : Nat) (isDownward : Bool) : TravState :=
  ⟨st.links_ ++ [link],
   if !isDownward then st.numUpwardConnections + 1 else st.numUpwardConnections⟩

/-- Model of `LinkTraverse::remove`: linear search for the first index
holding `link`; when found, the counter is decremented whenever
`index <= numUpwardConnections` and the entry is erased. -/
def remove (st : TravState) (link : Nat) : Bool × TravState :=
  match st.links_.findIdx? (fun x => x == link) with
  | some index =>
    ( true
    , ⟨st.links_.eraseIdx index,
       if (index : Int) ≤ st.numUpwardConnections then
         st.numUpwardConnections - 1
       else st.numUpwardConnections⟩ )
  | none => (false, st)

mutual

/-- Model of `LinkTraverse::findRootAdjacentLink`.  The by-reference
boolean of the source is modelled by passing the current flag value in
and returning the final cell value with the result.  The flag is
assigned `false` before the child loop and is never assigned `true`, so
every recursive call made from the child loop receives `false`. -/
def findRootAdjacentLink (t : Tree) (as : List Ctx) (prev : Option Nat)
    (root : Nat) (isUpward : Bool) : Option Nat × Bool :=
  match t with
  | .node i b cs =>
    if i = root then (prev, isUpward)
    else
      let up : Option Nat × Bool :=
        match as with
        | c :: rest =>
          if hupf : isUpward = true ∧ some c.ident ≠ prev then
            findRootAdjacentLink (.node c.ident c.body c.children) rest (some i) root true
          else (none, isUpward)
        | [] => (none, isUpward)
      match up with
      | (some found, fl) => (some found, fl)
      | (none, _) => findAdjacentAmongChildren cs (⟨i, b, cs⟩ :: as) prev i root
termination_by ((if isUpward then as.length + 1 else 0), sizeOf t)
decreasing_by
  · simp_wf
    obtain ⟨h1, h2⟩ := hupf
    subst h1
    apply Prod.Lex.left
    first
    | omega
    | simp <;> omega
  · simp_wf
    rcases isUpward with _ | _
    · apply Prod.Lex.right
      first
    | omega
    | simp <;> omega
    · apply Prod.Lex.left
      first
    | omega
    | simp <;> omega

/-- Model of the child loop of `LinkTraverse::findRootAdjacentLink`:
children equal to `prev` are skipped; each recursive call passes the
current link as the new `prev` and the flag value `false`. -/
def findAdjacentAmongChildren (cs : List Tree) (ctx : List Ctx) (prev : Option Nat)
    (self root : Nat) : Option Nat × Bool :=
  match cs with
  | [] => (none, false)
  | child :: rest =>
    if prev ≠ some child.ident then
      match findRootAdjacentLink child ctx (some self) root false with
      | (some found, fl) => (some found, fl)
      | (none, _) => findAdjacentAmongChildren rest ctx prev self root
    else findAdjacentAmongChildren rest ctx prev self root
termination_by (0, sizeOf cs)
decreasing_by
  all_goals simp_wf
  all_goals apply Prod.Lex.right
  all_goals first
  | omega
  | simp <;> omega

end

/-- Model of `LinkTraverse::prependRootAdjacentLinkToward`: on a
nonempty traversal, search from the target link (given as a zipper)
toward the current front entry with the flag initialised to `true`;
when a link is found it is inserted at the very front and the upward
counter is incremented exactly when the final flag value is `true`. -/
def prependRootAdjacentLinkToward (st : TravState) (t : Tree) (as : List Ctx) :
    Option Nat × TravState :=
  match st.links_ with
  | [] => (none, st)
  | front :: _ =>
    match findRootAdjacentLink t as none front true with
    | (some linkToPrepend, isUpward) =>
      ( some linkToPrepend
      , ⟨linkToPrepend :: st.links_,
         if isUpward then st.numUpwardConnections + 1 else st.numUpwardConnections⟩ )
    | (none, _) => (none, st)

end Cnoid

/-!
Forward kinematics evaluator (`LinkTraverse::calcForwardKinematics`).
The numeric state is modelled over the real numbers; the source uses
double precision floating point, for which the exact real arithmetic is
the mathematical reading of the formulas.
-/

/-- Column vector in three dimensions. -/
@[ext]
structure Vec3 where
  x : ℝ
  y : ℝ
  z : ℝ

instance : Add Vec3 := ⟨fun u v => ⟨u.x + v.x, u.y + v.y, u.z + v.z⟩⟩

instance : Sub Vec3 := ⟨fun u v => ⟨u.x - v.x, u.y - v.y, u.z - v.z⟩⟩

instance : SMul ℝ Vec3 := ⟨fun r v => ⟨r * v.x, r * v.y, r * v.z⟩⟩

/-- Cross product of three dimensional vectors. -/
def Vec3.cross (u v : Vec3) : Vec3 :=
  ⟨u.y * v.z - u.z * v.y, u.z * v.x - u.x * v.z, u.x * v.y - u.y * v.x⟩

theorem Vec3.add_def (u v : Vec3) : u + v = ⟨u.x + v.x, u.y + v.y, u.z + v.z⟩ := rfl

theorem Vec3.sub_def (u v : Vec3) : u - v = ⟨u.x - v.x, u.y - v.y, u.z - v.z⟩ := rfl

theorem Vec3.smul_def (r : ℝ) (v : Vec3) : r • v = ⟨r * v.x, r * v.y, r * v.z⟩ := rfl

/-- Square matrix in three dimensions, row major. -/
@[ext]
structure Mat3 where
  m00 : ℝ
  m01 : ℝ
  m02 : ℝ
  m10 : ℝ
  m11 : ℝ
  m12 : ℝ
  m20 : ℝ
  m21 : ℝ
  m22 : ℝ

/-- Matrix product. -/
def Mat3.mul (A B : Mat3) : Mat3 :=
  ⟨A.m00 * B.m00 + A.m01 * B.m10 + A.m02 * B.m20,
   A.m00 * B.m01 + A.m01 * B.m11 + A.m02 * B.m21,
   A.m00 * B.m02 + A.m01 * B.m12 + A.m02 * B.m22,
   A.m10 * B.m00 + A.m11 * B.m10 + A.m12 * B.m20,
   A.m10 * B.m01 + A.m11 * B.m11 + A.m12 * B.m21,
   A.m10 * B.m02 + A.m11 * B.m12 + A.m12 * B.m22,
   A.m20 * B.m00 + A.m21 * B.m10 + A.m22 * B.m20,
   A.m20 * B.m01 + A.m21 * B.m11 + A.m22 * B.m21,
   A.m20 * B.m02 + A.m21 * B.m12 + A.m22 * B.m22⟩

instance : Mul Mat3 := ⟨Mat3.mul⟩

theorem Mat3.mul_def (A B : Mat3) : A * B = Mat3.mul A B := rfl

/-- Matrix acting on a column vector. -/
def Mat3.mulVec (A : Mat3) (v : Vec3) : Vec3 :=
  ⟨A.m00 * v.x + A.m01 * v.y + A.m02 * v.z,
   A.m10 * v.x + A.m11 * v.y + A.m12 * v.z,
   A.m20 * v.x + A.m21 * v.y + A.m22 * v.z⟩

/-- Matrix transposition. -/
def Mat3.transpose (A : Mat3) : Mat3 :=
  ⟨A.m00, A.m10, A.m20, A.m01, A.m11, A.m21, A.m02, A.m12, A.m22⟩

/-- Identity matrix. -/
def Mat3.one : Mat3 := ⟨1, 0, 0, 0, 1, 0, 0, 0, 1⟩

/-- Rodrigues rotation matrix written with explicit cosine and sine
values: `c I + s K + (1 - c) a aT` with `K` the cross product matrix of
the axis `a`. -/
def rodrigues (c s : ℝ) (a : Vec3) : Mat3 :=
  ⟨c + (1 - c) * a.x * a.x, -(s * a.z) + (1 - c) * a.x * a.y, s * a.y + (1 - c) * a.x * a.z,
   s * a.z + (1 - c) * a.x * a.y, c + (1 - c) * a.y * a.y, -(s * a.x) + (1 - c) * a.y * a.z,
   -(s * a.y) + (1 - c) * a.x * a.z, s * a.x + (1 - c) * a.y * a.z, c + (1 - c) * a.z * a.z⟩

/-- Rotation matrix of `Eigen::AngleAxisd(q, a)` for a unit axis `a`.
The `inverse()` of the source is the rotation about the same axis by
the negated angle. -/
noncomputable def AngleAxis (q : ℝ) (a : Vec3) : Mat3 :=
  rodrigues (Real.cos q) (Real.sin q) a

/-- Joint classification of a link.  `FIXED_JOINT` is also the target
of the `default` label of the source switch statements. -/
inductive JointType where
  | rotational
  | slide
  | fixed
deriving DecidableEq

/-- Static data of a link read by the evaluator: joint type, structural
parent identifier (the `parent()` pointer of the source, assumed valid
where the downward pass dereferences it), joint scalars `q`, `dq`,
`ddq`, rotation axis `a`, offset `b`, slide direction `d` and the body
fixed rotation `Rb`. -/
structure LinkInfo where
  jointType : JointType
  parent : Nat
  q : ℝ
  dq : ℝ
  ddq : ℝ
  a : Vec3
  b : Vec3
  d : Vec3
  Rb : Mat3

/-- Cartesian state of a link: global rotation `R`, position `p`,
angular velocity `w`, linear velocity `v`, angular acceleration `dw`
and linear acceleration `dv`. -/
structure Cart where
  R : Mat3
  p : Vec3
  w : Vec3
  v : Vec3
  dw : Vec3
  dv : Vec3

/-- One iteration of the upward pass of
`LinkTraverse::calcForwardKinematics`: the state of `link` is solved
from the already known state of its mechanism child `child`
(`links_[i-1]`), switching on the joint type of the child and using the
inverse joint transform.  Fields not written keep their previous
values. -/
noncomputable def upwardStep (info : Nat → LinkInfo) (calcVelocity calcAcceleration : Bool)
    (link child : Nat) (σ : Nat → Cart) : Nat → Cart :=
  let ch := info child
  let cc := σ child
  let lc := σ link
  match ch.jointType with
  | .rotational =>
    let R := cc.R * AngleAxis (-ch.q) ch.a * ch.Rb.transpose
    let arm := R.mulVec ch.b
    let p := cc.p - arm
    if calcVelocity then
      let sw := R.mulVec (ch.Rb.mulVec ch.a)
      let w := cc.w - ch.dq • sw
      let v := cc.v - w.cross arm
      if calcAcceleration then
        let dw := cc.dw - ch.dq • (w.cross sw) - ch.ddq • sw
        let dv := cc.dv - w.cross (w.cross arm) - dw.cross arm
        Function.update σ link ⟨R, p, w, v, dw, dv⟩
      else Function.update σ link ⟨R, p, w, v, lc.dw, lc.dv⟩
    else Function.update σ link ⟨R, p, lc.w, lc.v, lc.dw, lc.dv⟩
  | .slide =>
    let R := cc.R * ch.Rb.transpose
    let arm := R.mulVec (ch.b + ch.Rb.mulVec (ch.q • ch.d))
    let p := cc.p - arm
    if calcVelocity then
      let sv := R.mulVec (ch.Rb.mulVec ch.d)
      let w := cc.w
      let v := cc.v - ch.dq • sv
      if calcAcceleration then
        let dw := cc.dw
        let dv := cc.dv - cc.w.cross (cc.w.cross arm) - cc.dw.cross arm
          - (2 * ch.dq) • (cc.w.cross sv) - ch.ddq • sv
        Function.update σ link ⟨R, p, w, v, dw, dv⟩
      else Function.update σ link ⟨R, p, w, v, lc.dw, lc.dv⟩
    else Function.update σ link ⟨R, p, lc.w, lc.v, lc.dw, lc.dv⟩
  | .fixed =>
    let R := cc.R * ch.Rb.transpose
    let arm := R.mulVec ch.b
    let p := cc.p - arm
    if calcVelocity then
      let w := cc.w
      let v := cc.v - w.cross arm
      if calcAcceleration then
        let dw := cc.dw
        let dv := cc.dv - cc.w.cross (cc.w.cross arm) - cc.dw.cross arm
        Function.update σ link ⟨R, p, w, v, dw, dv⟩
      else Function.update σ link ⟨R, p, w, v, lc.dw, lc.dv⟩
    else Function.update σ link ⟨R, p, lc.w, lc.v, lc.dw, lc.dv⟩

/-- One iteration of the downward pass of
`LinkTraverse::calcForwardKinematics`: the state of `link` is computed
from the current state of its structural parent, switching on the joint
type of `link` itself. -/
noncomputable def downwardStep (info : Nat → LinkInfo) (calcVelocity calcAcceleration : Bool)
    (link : Nat) (σ : Nat → Cart) : Nat → Cart :=
  let li := info link
  let pc := σ li.parent
  let lc := σ link
  match li.jointType with
  | .rotational =>
    let R := pc.R * li.Rb * AngleAxis li.q li.a
    let arm := pc.R.mulVec li.b
    let p := pc.p + arm
    if calcVelocity then
      let sw := pc.R.mulVec (li.Rb.mulVec li.a)
      let w := pc.w + li.dq • sw
      let v := pc.v + pc.w.cross arm
      if calcAcceleration then
        let dw := pc.dw + li.dq • (pc.w.cross sw) + li.ddq • sw
        let dv := pc.dv + pc.w.cross (pc.w.cross arm) + pc.dw.cross arm
        Function.update σ link ⟨R, p, w, v, dw, dv⟩
      else Function.update σ link ⟨R, p, w, v, lc.dw, lc.dv⟩
    else Function.update σ link ⟨R, p, lc.w, lc.v, lc.dw, lc.dv⟩
  | .slide =>
    let R := pc.R * li.Rb
    let arm := pc.R.mulVec (li.b + li.Rb.mulVec (li.q • li.d))
    let p := pc.p + arm
    if calcVelocity then
      let sv := pc.R.mulVec (li.Rb.mulVec li.d)
      let w := pc.w
      let v := pc.v + li.dq • sv
      if calcAcceleration then
        let dw := pc.dw
        let dv := pc.dv + pc.w.cross (pc.w.cross arm) + pc.dw.cross arm
          + (2 * li.dq) • (pc.w.cross sv) + li.ddq • sv
        Function.update σ link ⟨R, p, w, v, dw, dv⟩
      else Function.update σ link ⟨R, p, w, v, lc.dw, lc.dv⟩
    else Function.update σ link ⟨R, p, lc.w, lc.v, lc.dw, lc.dv⟩
  | .fixed =>
    let R := pc.R * li.Rb
    let arm := pc.R.mulVec li.b
    let p := pc.p + arm
    if calcVelocity then
      let w := pc.w
      let v := pc.v + pc.w.cross arm
      if calcAcceleration then
        let dw := pc.dw
        let dv := pc.dv + pc.w.cross (pc.w.cross arm) + pc.dw.cross arm
        Function.update σ link ⟨R, p, w, v, dw, dv⟩
      else Function.update σ link ⟨R, p, w, v, lc.dw, lc.dv⟩
    else Function.update σ link ⟨R, p, lc.w, lc.v, lc.dw, lc.dv⟩

/-- Model of `LinkTraverse::calcForwardKinematics`.  The upward pass
visits indices `1` to `numUpwardConnections` inclusive; the downward
pass continues from the value the loop counter holds afterwards (which
is `1` when the counter is not positive) up to the end of the
sequence.  Only the Cartesian state map is transformed; the traversal
sequence, the counter and all static link data are untouched. -/
noncomputable def calcForwardKinematics (info : Nat → LinkInfo) (links_ : List Nat)
    (numUpwardConnections : Int) (calcVelocity calcAcceleration : Bool)
    (σ : Nat → Cart) : Nat → Cart :=
  let σ1 := (List.range' 1 numUpwardConnections.toNat).foldl
    (fun τ i =>
      upwardStep info calcVelocity calcAcceleration (links_.getD i 0) (links_.getD (i - 1) 0) τ) σ
  let start := (max 1 (numUpwardConnections + 1)).toNat
  (List.range' start (links_.length - start)).foldl
    (fun τ i => downwardStep info calcVelocity calcAcceleration (links_.getD i 0) τ) σ1

/-- Arm vector of the downward pass, as assigned by the source in each
branch of the switch on the joint type of `link`. -/
noncomputable def downwardArm (info : Nat → LinkInfo) (link : Nat) (σ : Nat → Cart) : Vec3 :=
  let li := info link
  let pc := σ li.parent
  match li.jointType with
  | .rotational => pc.R.mulVec li.b
  | .slide => pc.R.mulVec (li.b + li.Rb.mulVec (li.q • li.d))
  | .fixed => pc.R.mulVec li.b

/-- Arm vector of the upward pass, as assigned by the source in each
branch of the switch on the joint type of `child` (the arm is built
from the freshly computed rotation of the solved link). -/
noncomputable def upwardArm (info : Nat → LinkInfo) (child : Nat) (σ : Nat → Cart) : Vec3 :=
  let ch := info child
  let cc := σ child
  match ch.jointType with
  | .rotational => (cc.R * AngleAxis (-ch.q) ch.a * ch.Rb.transpose).mulVec ch.b
  | .slide => (cc.R * ch.Rb.transpose).mulVec (ch.b + ch.Rb.mulVec (ch.q • ch.d))
  | .fixed => (cc.R * ch.Rb.transpose).mulVec ch.b

/-- Identity Cartesian state used by the concrete scenarios: identity
rotation, everything else zero. -/
def restCart : Cart :=
  ⟨Mat3.one, ⟨0, 0, 0⟩, ⟨0, 0, 0⟩, ⟨0, 0, 0⟩, ⟨0, 0, 0⟩, ⟨0, 0, 0⟩⟩

/-- Static link data of the C3 scenario: a revolute joint about the Z
axis with angle `pi / 2`, offset `b = (1,0,0)`, identity `Rb`, parent
link `0`, zero joint rates. -/
noncomputable def linkAInfo : LinkInfo :=
  ⟨JointType.rotational, 0, Real.pi / 2, 0, 0, ⟨0, 0, 1⟩, ⟨1, 0, 0⟩, ⟨0, 0, 0⟩, Mat3.one⟩

/-- Resulting state map of the C3 scenario: the two-link mechanism
root (id 0) to linkA (id 1), traversal `[0, 1]` with no upward
connections, pose propagation only. -/
noncomputable def c3Result : Nat → Cart :=
  calcForwardKinematics (fun _ => linkAInfo) [0, 1] 0 false false (fun _ => restCart)

/-- Static link data of the C4 counterexample: a fixed joint with
offset `b = (1,0,0)`, identity `Rb`, parent link `0`, and all joint
rates zero. -/
def c4Info : LinkInfo :=
  ⟨JointType.fixed, 0, 0, 0, 0, ⟨0, 0, 0⟩, ⟨1, 0, 0⟩, ⟨0, 0, 0⟩, Mat3.one⟩

/-- Initial state of the C4 counterexample: the root link spins about Z
with unit angular velocity while every joint rate is zero. -/
def c4Root : Cart :=
  ⟨Mat3.one, ⟨0, 0, 0⟩, ⟨0, 0, 1⟩, ⟨0, 0, 0⟩, ⟨0, 0, 0⟩, ⟨0, 0, 0⟩⟩

/-- Resulting state map of the C4 counterexample: traversal `[0, 1]`,
no upward connections, velocity and acceleration propagation. -/
noncomputable def c4Result : Nat → Cart :=
  calcForwardKinematics (fun _ => c4Info) [0, 1] 0 true true
    (fun n => if n = 0 then c4Root else restCart)

/-- Agreement of two Cartesian state maps on the pose fields `R` and
`p` at every link. -/
def poseAgree (σ1 σ2 : Nat → Cart) : Prop :=
  ∀ n, (σ1 n).R = (σ2 n).R ∧ (σ1 n).p = (σ2 n).p

namespace Cnoid

/-- Preorder listing of the subtrees whose root is not the excluded
predecessor: the links pushed by the child loop of `traverse`. -/
def forestPreorderExcept (prev : Option Nat) : List Tree → List Nat
  | [] => []
  | u :: us =>
    if prev ≠ some u.ident then Tree.preorder u ++ forestPreorderExcept prev us
    else forestPreorderExcept prev us

/-- Links pushed by the upward recursion of `traverse` started from the
link with identifier `x` of body `body` whose ancestor contexts are
`as`: each ancestor within the same body contributes itself, then the
contribution of its own ancestors, then its children other than the
link it was entered from. -/
def upChain (x body : Nat) : List Ctx → List Nat
  | [] => []
  | c :: rest =>
    if c.body = body then
      c.ident :: (upChain c.ident c.body rest ++ forestPreorderExcept (some x) c.children)
    else []

/-- Modelled from the spec: the number of links on the parent pointer
path from the reference link to the structural root of its mechanism,
not stepping past the root and not crossing to a parent of a different
mechanism. -/
def specUpwardPathLength (body : Nat) : List Ctx → Nat
  | [] => 0
  | c :: rest => if c.body = body then specUpwardPathLength c.body rest + 1 else 0

mutual

/-- Directed parent-to-child edges of a tree, as identifier pairs. -/
def childPairs : Tree → List (Nat × Nat)
  | .node i _ cs => forestChildPairs i cs

/-- Directed edges of a list of subtrees of a common parent `p`:
the edge from `p` to each root, together with all inner edges. -/
def forestChildPairs (p : Nat) : List Tree → List (Nat × Nat)
  | [] => []
  | u :: us => (p, u.ident) :: (childPairs u ++ forestChildPairs p us)

end

mutual

/-- Occurrence of a subtree inside a tree: the tree itself or any
subtree occurring in one of its children. -/
def SubtreeOf : Tree → Tree → Prop
  | s, .node i b cs => s = .node i b cs ∨ SubtreeOfForest s cs

/-- Occurrence of a subtree inside one of the trees of a list. -/
def SubtreeOfForest : Tree → List Tree → Prop
  | _, [] => False
  | s, u :: us => SubtreeOf s u ∨ SubtreeOfForest s us

end

end Cnoid

/-!
Claims about `LinkTraverse::remove`.
-/

/-- C6: `remove` succeeds exactly when the link occurs in the traversal
sequence; on a missing link the whole state is returned unchanged (in
particular length and counter); when the first occurrence is at index
`i`, that single entry is erased (the length drops by one) and the
counter is decremented precisely when `i <= numUpwardConnections`,
boundary included. -/
theorem remove_spec_c6 (tr : Cnoid.TravState) (l : Nat) :
    ((Cnoid.remove tr l).1 = true ↔ l ∈ tr.links_)
    ∧ (l ∉ tr.links_ → Cnoid.remove tr l = (false, tr))
    ∧ (∀ i, tr.links_.findIdx? (fun x => x == l) = some i →
        (Cnoid.remove tr l).2.links_ = tr.links_.eraseIdx i
        ∧ (Cnoid.remove tr l).2.links_.length + 1 = tr.links_.length
        ∧ (Cnoid.remove tr l).2.numUpwardConnections =
            (if (i : Int) ≤ tr.numUpwardConnections then tr.numUpwardConnections - 1
             else tr.numUpwardConnections)) := by
  refine ⟨?_, ?_, ?_⟩
  · constructor
    · intro h
      by_contra hmem
      have hnone : tr.links_.findIdx? (fun x => x == l) = none := by
        rw [List.findIdx?_eq_none_iff]
        intro x hx
        simp only [beq_eq_false_iff_ne, ne_eq]
        intro hxl
        exact hmem (hxl ▸ hx)
      simp [Cnoid.remove, hnone] at h
    · intro hmem
      rcases hsome : tr.links_.findIdx? (fun x => x == l) with _ | i
      · rw [List.findIdx?_eq_none_iff] at hsome
        have := hsome l hmem
        simp at this
      · simp [Cnoid.remove, hsome]
  · intro hmem
    have hnone : tr.links_.findIdx? (fun x => x == l) = none := by
      rw [List.findIdx?_eq_none_iff]
      intro x hx
      simp only [beq_eq_false_iff_ne, ne_eq]
      intro hxl
      exact hmem (hxl ▸ hx)
    simp [Cnoid.remove, hnone]
  · intro i hi
    have hlt : i < tr.links_.length := by
      rcases List.findIdx?_eq_some_iff_getElem.1 hi with ⟨hl, _, _⟩
      exact hl
    refine ⟨by simp [Cnoid.remove, hi], ?_, by simp [Cnoid.remove, hi]⟩
    simp [Cnoid.remove, hi]
    exact List.length_eraseIdx_add_one hlt

/-- Witness for C6 at a concrete traversal. -/
theorem remove_spec_c6_witness :
    (Cnoid.remove ⟨[4, 7, 9], 1⟩ 9).1 = true
    ∧ (Cnoid.remove ⟨[4, 7, 9], 1⟩ 9).2.links_.length + 1 =
        (Cnoid.TravState.mk [4, 7, 9] 1).links_.length
    ∧ (Cnoid.remove ⟨[4, 7, 9], 1⟩ 7).2.numUpwardConnections = 0 := by
  refine ⟨(remove_spec_c6 ⟨[4, 7, 9], 1⟩ 9).1.mpr (by simp), ?_, ?_⟩
  · exact ((remove_spec_c6 ⟨[4, 7, 9], 1⟩ 9).2.2 2 (by rfl)).2.1
  · have h := ((remove_spec_c6 ⟨[4, 7, 9], 1⟩ 7).2.2 1 (by rfl)).2.2
    simpa using h

/-- C10: removing the front entry of a traversal whose upward counter
is zero succeeds, erases the front entry, and leaves the counter at
`-1`; the counter is therefore not kept nonnegative by `remove`. -/
theorem remove_front_counter_negative_c10 (L : Nat) (rest : List Nat) :
    Cnoid.remove ⟨L :: rest, 0⟩ L = (true, ⟨rest, -1⟩) := by
  have hhead : (L :: rest).findIdx? (fun x => x == L) = some 0 := by
    rw [List.findIdx?_cons]
    simp
  simp [Cnoid.remove, hhead]

/-!
Claims about the pose scenario (C3).
-/

/-- C3 counterexample: in the scenario root to linkA (revolute about Z,
`q = pi / 2`, `b = (1,0,0)`, `Rb = I`, root at identity), the computed
position of linkA is `(1, 0, 0)` and differs from the claimed value
`(0, 1, 0)` by `1` in both the x and y components, far beyond the
claimed tolerance `1e-9`: the arm is built from the parent rotation,
not from the rotation of linkA. -/
theorem c3_position_counterexample :
    (c3Result 1).p = ⟨1, 0, 0⟩
    ∧ ¬(|(c3Result 1).p.x - 0| ≤ 1 / 1000000000
        ∧ |(c3Result 1).p.y - 1| ≤ 1 / 1000000000
        ∧ |(c3Result 1).p.z - 0| ≤ 1 / 1000000000) := by
  have hrange : List.range' 1 ((0 : Int).toNat) = [] := rfl
  have hstart : (max 1 ((0 : Int) + 1)).toNat = 1 := rfl
  have hres : (c3Result 1).p = ⟨1, 0, 0⟩ := by
    simp [c3Result, calcForwardKinematics, hrange, hstart, downwardStep, linkAInfo,
      restCart, AngleAxis, rodrigues, Mat3.mul_def, Mat3.mul, Mat3.mulVec, Mat3.one,
      Vec3.add_def, Vec3.smul_def, Function.update]
  refine ⟨hres, ?_⟩
  rw [hres]
  intro h
  have hy := h.2.1
  norm_num at hy

/-- C3 amended: in the same scenario the rotation of linkA is the 90
degree rotation about Z, and its position is
`p_root + R_root * b = (1, 0, 0)`: the downward arm is the offset `b`
rotated by the parent rotation. -/
theorem c3_pose_amended :
    (c3Result 1).R = ⟨0, -1, 0, 1, 0, 0, 0, 0, 1⟩
    ∧ (c3Result 1).p = ⟨1, 0, 0⟩ := by
  have hrange : List.range' 1 ((0 : Int).toNat) = [] := rfl
  have hstart : (max 1 ((0 : Int) + 1)).toNat = 1 := rfl
  constructor <;>
    simp [c3Result, calcForwardKinematics, hrange, hstart, downwardStep, linkAInfo,
      restCart, AngleAxis, rodrigues, Mat3.mul_def, Mat3.mul, Mat3.mulVec, Mat3.one,
      Vec3.add_def, Vec3.smul_def, Function.update]

/-!
Claims about velocity and acceleration propagation with zero joint
rates (C4).
-/

lemma downwardStep_zero_rate (info : Nat → LinkInfo) (σ : Nat → Cart) (link : Nat)
    (hdq : (info link).dq = 0) (hddq : (info link).ddq = 0) :
    ((downwardStep info true true link σ) link).w = (σ (info link).parent).w
    ∧ ((downwardStep info true true link σ) link).dw = (σ (info link).parent).dw
    ∧ ((info link).jointType = JointType.slide →
        ((downwardStep info true true link σ) link).v = (σ (info link).parent).v)
    ∧ (((info link).jointType = JointType.rotational ∨ (info link).jointType = JointType.fixed) →
        ((downwardStep info true true link σ) link).v =
          (σ (info link).parent).v
          + (σ (info link).parent).w.cross (downwardArm info link σ))
    ∧ ((downwardStep info true true link σ) link).dv =
        (σ (info link).parent).dv
        + (σ (info link).parent).w.cross
            ((σ (info link).parent).w.cross (downwardArm info link σ))
        + (σ (info link).parent).dw.cross (downwardArm info link σ) := by
  rcases hjt : (info link).jointType with _ | _ | _ <;>
    refine ⟨?_, ?_, fun hsl => ?_, fun hrf => ?_, ?_⟩ <;>
      simp_all [downwardStep, downwardArm, Function.update_same,
        Vec3.smul_def, Vec3.add_def, Vec3.sub_def, Vec3.cross] <;>
      (try ext) <;> ring

lemma upwardStep_zero_rate (info : Nat → LinkInfo) (σ : Nat → Cart) (link child : Nat)
    (hdq : (info child).dq = 0) (hddq : (info child).ddq = 0) :
    ((upwardStep info true true link child σ) link).w = (σ child).w
    ∧ ((upwardStep info true true link child σ) link).dw = (σ child).dw
    ∧ ((info child).jointType = JointType.slide →
        ((upwardStep info true true link child σ) link).v = (σ child).v)
    ∧ (((info child).jointType = JointType.rotational ∨ (info child).jointType = JointType.fixed) →
        ((upwardStep info true true link child σ) link).v =
          (σ child).v - (σ child).w.cross (upwardArm info child σ))
    ∧ ((upwardStep info true true link child σ) link).dv =
        (σ child).dv
        - (σ child).w.cross ((σ child).w.cross (upwardArm info child σ))
        - (σ child).dw.cross (upwardArm info child σ) := by
  rcases hjt : (info child).jointType with _ | _ | _ <;>
    refine ⟨?_, ?_, fun hsl => ?_, fun hrf => ?_, ?_⟩ <;>
      simp_all [upwardStep, upwardArm, Function.update_same,
        Vec3.smul_def, Vec3.add_def, Vec3.sub_def, Vec3.cross] <;>
      (try ext) <;> ring

/-- C4 counterexample: with every joint rate zero but the root spinning
about Z, a fixed joint with offset `b = (1,0,0)` receives
`v = (0,1,0)`, different from the predecessor value `v = (0,0,0)`: even
for fixed joints the linear velocity picks up the arm transport term,
so the claimed equality with the predecessor values fails. -/
theorem c4_fixed_velocity_counterexample :
    (∀ n : Nat, ((fun _ => c4Info) n : LinkInfo).dq = 0
      ∧ ((fun _ => c4Info) n : LinkInfo).ddq = 0)
    ∧ (c4Result 1).v = ⟨0, 1, 0⟩
    ∧ (c4Result 0).v = ⟨0, 0, 0⟩
    ∧ (c4Result 1).v ≠ (c4Result 0).v := by
  have hrange : List.range' 1 ((0 : Int).toNat) = [] := rfl
  have hstart : (max 1 ((0 : Int) + 1)).toNat = 1 := rfl
  have h1 : (c4Result 1).v = ⟨0, 1, 0⟩ := by
    simp [c4Result, calcForwardKinematics, hrange, hstart, downwardStep, c4Info, c4Root,
      restCart, Mat3.mul_def, Mat3.mul, Mat3.mulVec, Mat3.one,
      Vec3.add_def, Vec3.smul_def, Vec3.cross, Function.update]
  have h0 : (c4Result 0).v = ⟨0, 0, 0⟩ := by
    simp [c4Result, calcForwardKinematics, hrange, hstart, downwardStep, c4Info, c4Root,
      restCart, Mat3.mul_def, Mat3.mul, Mat3.mulVec, Mat3.one,
      Vec3.add_def, Vec3.smul_def, Vec3.cross, Function.update]
  refine ⟨fun n => ⟨rfl, rfl⟩, h1, h0, ?_⟩
  rw [h1, h0]
  simp

/-- C4 amended: when every joint rate is zero, each propagation step
(downward from the parent, upward from the child) transports the state
as follows: `w` and `dw` are copied from the predecessor for all joint
types; `v` is copied for prismatic joints; for revolute and fixed
joints `v` keeps the arm transport term `w x arm`; and `dv` keeps the
centripetal and tangential transport terms
`w x (w x arm) + dw x arm` for all joint types (signs inverted on the
upward pass). -/
theorem c4_zero_rate_propagation_amended (info : Nat → LinkInfo) (σ : Nat → Cart)
    (link child : Nat) (hz : ∀ n, (info n).dq = 0 ∧ (info n).ddq = 0) :
    (((downwardStep info true true link σ) link).w = (σ (info link).parent).w
      ∧ ((downwardStep info true true link σ) link).dw = (σ (info link).parent).dw
      ∧ ((info link).jointType = JointType.slide →
          ((downwardStep info true true link σ) link).v = (σ (info link).parent).v)
      ∧ (((info link).jointType = JointType.rotational
            ∨ (info link).jointType = JointType.fixed) →
          ((downwardStep info true true link σ) link).v =
            (σ (info link).parent).v
            + (σ (info link).parent).w.cross (downwardArm info link σ))
      ∧ ((downwardStep info true true link σ) link).dv =
          (σ (info link).parent).dv
          + (σ (info link).parent).w.cross
              ((σ (info link).parent).w.cross (downwardArm info link σ))
          + (σ (info link).parent).dw.cross (downwardArm info link σ))
    ∧ (((upwardStep info true true link child σ) link).w = (σ child).w
      ∧ ((upwardStep info true true link child σ) link).dw = (σ child).dw
      ∧ ((info child).jointType = JointType.slide →
          ((upwardStep info true true link child σ) link).v = (σ child).v)
      ∧ (((info child).jointType = JointType.rotational
            ∨ (info child).jointType = JointType.fixed) →
          ((upwardStep info true true link child σ) link).v =
            (σ child).v - (σ child).w.cross (upwardArm info child σ))
      ∧ ((upwardStep info true true link child σ) link).dv =
          (σ child).dv
          - (σ child).w.cross ((σ child).w.cross (upwardArm info child σ))
          - (σ child).dw.cross (upwardArm info child σ)) :=
  ⟨downwardStep_zero_rate info σ link (hz link).1 (hz link).2,
   upwardStep_zero_rate info σ link child (hz child).1 (hz child).2⟩

/-- Witness for the amended C4 at a concrete fixed joint. -/
theorem c4_zero_rate_propagation_amended_witness :
    ((downwardStep (fun _ => c4Info) true true 1 (fun _ => restCart)) 1).w = restCart.w := by
  have h := c4_zero_rate_propagation_amended (fun _ => c4Info) (fun _ => restCart) 1 0
    (fun n => ⟨rfl, rfl⟩)
  simpa using h.1.1

/-!
Matrix algebra facts used by the pose inversion claim (C8).
-/

lemma Mat3.mul_assoc (A B C : Mat3) : A * B * C = A * (B * C) := by
  ext <;> simp [Mat3.mul_def, Mat3.mul] <;> ring

lemma Mat3.mul_one (A : Mat3) : A * Mat3.one = A := by
  ext <;> simp [Mat3.mul_def, Mat3.mul, Mat3.one]

lemma Mat3.one_mul (A : Mat3) : Mat3.one * A = A := by
  ext <;> simp [Mat3.mul_def, Mat3.mul, Mat3.one]

/-- Product of the Rodrigues matrices with opposite sine values: for a
unit axis and `c ^ 2 + s ^ 2 = 1` the two rotations cancel. -/
lemma rodrigues_neg_mul (c s : ℝ) (a : Vec3)
    (hx : a.x ^ 2 + a.y ^ 2 + a.z ^ 2 = 1) (hcs : c ^ 2 + s ^ 2 = 1) :
    rodrigues c (-s) a * rodrigues c s a = Mat3.one := by
  refine Mat3.ext ?_ ?_ ?_ ?_ ?_ ?_ ?_ ?_ ?_ <;>
    simp only [rodrigues, Mat3.mul_def, Mat3.mul, Mat3.one]
  · linear_combination (s ^ 2 + (1 - c) ^ 2 * a.x * a.x) * hx + (1 - a.x * a.x) * hcs
  · linear_combination ((1 - c) ^ 2 * a.x * a.y) * hx - (a.x * a.y) * hcs
  · linear_combination ((1 - c) ^ 2 * a.x * a.z) * hx - (a.x * a.z) * hcs
  · linear_combination ((1 - c) ^ 2 * a.x * a.y) * hx - (a.x * a.y) * hcs
  · linear_combination (s ^ 2 + (1 - c) ^ 2 * a.y * a.y) * hx + (1 - a.y * a.y) * hcs
  · linear_combination ((1 - c) ^ 2 * a.y * a.z) * hx - (a.y * a.z) * hcs
  · linear_combination ((1 - c) ^ 2 * a.x * a.z) * hx - (a.x * a.z) * hcs
  · linear_combination ((1 - c) ^ 2 * a.y * a.z) * hx - (a.y * a.z) * hcs
  · linear_combination (s ^ 2 + (1 - c) ^ 2 * a.z * a.z) * hx + (1 - a.z * a.z) * hcs

/-- Cancellation of an angle axis rotation against the rotation by the
negated angle, for a unit axis. -/
lemma angleAxis_neg_mul (q : ℝ) (a : Vec3)
    (hx : a.x ^ 2 + a.y ^ 2 + a.z ^ 2 = 1) :
    AngleAxis (-q) a * AngleAxis q a = Mat3.one := by
  have h : AngleAxis (-q) a = rodrigues (Real.cos q) (-Real.sin q) a := by
    simp [AngleAxis, Real.cos_neg, Real.sin_neg]
  rw [h, AngleAxis]
  exact rodrigues_neg_mul _ _ _ hx (Real.cos_sq_add_sin_sq q)

lemma Vec3.sub_add_cancel (u v : Vec3) : u - v + v = u := by
  ext <;> simp [Vec3.add_def, Vec3.sub_def]

lemma rot_cancel (M Rb : Mat3) (q : ℝ) (a : Vec3)
    (hRb : Rb.transpose * Rb = Mat3.one)
    (ha : a.x ^ 2 + a.y ^ 2 + a.z ^ 2 = 1) :
    M * AngleAxis (-q) a * Rb.transpose * Rb * AngleAxis q a = M := by
  rw [Mat3.mul_assoc (M * AngleAxis (-q) a) Rb.transpose Rb, hRb, Mat3.mul_one,
    Mat3.mul_assoc M (AngleAxis (-q) a) (AngleAxis q a), angleAxis_neg_mul q a ha,
    Mat3.mul_one]

lemma transpose_cancel (M Rb : Mat3) (hRb : Rb.transpose * Rb = Mat3.one) :
    M * Rb.transpose * Rb = M := by
  rw [Mat3.mul_assoc M Rb.transpose Rb, hRb, Mat3.mul_one]

/-!
Claim C8: the upward pass inverts the downward pose relation.
-/

/-- C8: for every upward step solving `link` from its known mechanism
child, the computed pose satisfies the downward relation exactly: for a
revolute child `child.R = link.R * child.Rb * Rot(child.a, child.q)`
(and `child.R = link.R * child.Rb` for prismatic and fixed children),
and in all joint cases `child.p = link.p + arm` with the arm built from
the child data as in the downward formulas.  The hypotheses record the
Link class invariants: `Rb` is a rotation (orthogonal) and the joint
axis is a unit vector. -/
theorem c8_upward_pose_inversion (info : Nat → LinkInfo) (σ : Nat → Cart)
    (link child : Nat) (cv ca : Bool)
    (hRb : (info child).Rb.transpose * (info child).Rb = Mat3.one)
    (ha : (info child).a.x ^ 2 + (info child).a.y ^ 2 + (info child).a.z ^ 2 = 1) :
    ((info child).jointType = JointType.rotational →
      (σ child).R =
        ((upwardStep info cv ca link child σ) link).R * (info child).Rb
          * AngleAxis (info child).q (info child).a)
    ∧ (((info child).jointType = JointType.slide
          ∨ (info child).jointType = JointType.fixed) →
      (σ child).R = ((upwardStep info cv ca link child σ) link).R * (info child).Rb)
    ∧ (σ child).p =
        ((upwardStep info cv ca link child σ) link).p + upwardArm info child σ := by
  refine ⟨fun hjt => ?_, fun hjt => ?_, ?_⟩
  · rcases cv with _ | _ <;> rcases ca with _ | _ <;>
      simp [upwardStep, hjt, Function.update_same] <;>
      exact (rot_cancel ((σ child).R) (info child).Rb (info child).q (info child).a
        hRb ha).symm
  · rcases hjt with hjt | hjt <;>
      rcases cv with _ | _ <;> rcases ca with _ | _ <;>
      simp [upwardStep, hjt, Function.update_same] <;>
      exact (transpose_cancel ((σ child).R) (info child).Rb hRb).symm
  · rcases hjt : (info child).jointType with _ | _ | _ <;>
      rcases cv with _ | _ <;> rcases ca with _ | _ <;>
      simp [upwardStep, upwardArm, hjt, Function.update_same] <;>
      exact (Vec3.sub_add_cancel _ _).symm

/-- Witness for C8 at a concrete revolute child. -/
theorem c8_upward_pose_inversion_witness :
    restCart.p = ((upwardStep (fun _ => linkAInfo) true true 2 1 (fun _ => restCart)) 2).p
      + upwardArm (fun _ => linkAInfo) 1 (fun _ => restCart) := by
  have hRb : (linkAInfo.Rb.transpose) * linkAInfo.Rb = Mat3.one := by
    refine Mat3.ext ?_ ?_ ?_ ?_ ?_ ?_ ?_ ?_ ?_ <;>
      simp [linkAInfo, Mat3.transpose, Mat3.mul_def, Mat3.mul, Mat3.one]
  have ha : (linkAInfo.a.x : ℝ) ^ 2 + linkAInfo.a.y ^ 2 + linkAInfo.a.z ^ 2 = 1 := by
    simp [linkAInfo]
  have h := c8_upward_pose_inversion (fun _ => linkAInfo) (fun _ => restCart) 2 1 true true
    hRb ha
  exact h.2.2

/-!
Frame effect lemmas for the forward kinematics evaluator (C7).
-/

lemma upwardStep_apply_ne (info : Nat → LinkInfo) (cv ca : Bool) (link child n : Nat)
    (σ : Nat → Cart) (h : n ≠ link) : (upwardStep info cv ca link child σ) n = σ n := by
  rcases hjt : (info child).jointType with _ | _ | _ <;>
    rcases cv with _ | _ <;> rcases ca with _ | _ <;>
    simp [upwardStep, hjt, Function.update_noteq h]

lemma downwardStep_apply_ne (info : Nat → LinkInfo) (cv ca : Bool) (link n : Nat)
    (σ : Nat → Cart) (h : n ≠ link) : (downwardStep info cv ca link σ) n = σ n := by
  rcases hjt : (info link).jointType with _ | _ | _ <;>
    rcases cv with _ | _ <;> rcases ca with _ | _ <;>
    simp [downwardStep, hjt, Function.update_noteq h]

lemma upwardStep_no_velocity (info : Nat → LinkInfo) (ca : Bool) (link child n : Nat)
    (σ : Nat → Cart) :
    ((upwardStep info false ca link child σ) n).w = (σ n).w
    ∧ ((upwardStep info false ca link child σ) n).v = (σ n).v
    ∧ ((upwardStep info false ca link child σ) n).dw = (σ n).dw
    ∧ ((upwardStep info false ca link child σ) n).dv = (σ n).dv := by
  by_cases hn : n = link
  · subst hn
    rcases hjt : (info child).jointType with _ | _ | _ <;>
      simp [upwardStep, hjt, Function.update_same]
  · simp [upwardStep_apply_ne info false ca link child n σ hn]

lemma downwardStep_no_velocity (info : Nat → LinkInfo) (ca : Bool) (link n : Nat)
    (σ : Nat → Cart) :
    ((downwardStep info false ca link σ) n).w = (σ n).w
    ∧ ((downwardStep info false ca link σ) n).v = (σ n).v
    ∧ ((downwardStep info false ca link σ) n).dw = (σ n).dw
    ∧ ((downwardStep info false ca link σ) n).dv = (σ n).dv := by
  by_cases hn : n = link
  · subst hn
    rcases hjt : (info n).jointType with _ | _ | _ <;>
      simp [downwardStep, hjt, Function.update_same]
  · simp [downwardStep_apply_ne info false ca link n σ hn]

lemma upwardStep_no_acceleration (info : Nat → LinkInfo) (cv : Bool) (link child n : Nat)
    (σ : Nat → Cart) :
    ((upwardStep info cv false link child σ) n).dw = (σ n).dw
    ∧ ((upwardStep info cv false link child σ) n).dv = (σ n).dv := by
  by_cases hn : n = link
  · subst hn
    rcases hjt : (info child).jointType with _ | _ | _ <;> rcases cv with _ | _ <;>
      simp [upwardStep, hjt, Function.update_same]
  · simp [upwardStep_apply_ne info cv false link child n σ hn]

lemma downwardStep_no_acceleration (info : Nat → LinkInfo) (cv : Bool) (link n : Nat)
    (σ : Nat → Cart) :
    ((downwardStep info cv false link σ) n).dw = (σ n).dw
    ∧ ((downwardStep info cv false link σ) n).dv = (σ n).dv := by
  by_cases hn : n = link
  · subst hn
    rcases hjt : (info n).jointType with _ | _ | _ <;> rcases cv with _ | _ <;>
      simp [downwardStep, hjt, Function.update_same]
  · simp [downwardStep_apply_ne info cv false link n σ hn]

lemma upwardStep_poseAgree (info : Nat → LinkInfo) (cv1 ca1 cv2 ca2 : Bool)
    (link child : Nat) (σ1 σ2 : Nat → Cart) (h : poseAgree σ1 σ2) :
    poseAgree (upwardStep info cv1 ca1 link child σ1) (upwardStep info cv2 ca2 link child σ2) := by
  intro n
  by_cases hn : n = link
  · subst hn
    rcases hjt : (info child).jointType with _ | _ | _ <;>
      rcases cv1 with _ | _ <;> rcases ca1 with _ | _ <;>
      rcases cv2 with _ | _ <;> rcases ca2 with _ | _ <;>
      simp [upwardStep, hjt, Function.update_same, (h child).1, (h child).2]
  · rw [upwardStep_apply_ne info cv1 ca1 link child n σ1 hn,
      upwardStep_apply_ne info cv2 ca2 link child n σ2 hn]
    exact h n

lemma downwardStep_poseAgree (info : Nat → LinkInfo) (cv1 ca1 cv2 ca2 : Bool)
    (link : Nat) (σ1 σ2 : Nat → Cart) (h : poseAgree σ1 σ2) :
    poseAgree (downwardStep info cv1 ca1 link σ1) (downwardStep info cv2 ca2 link σ2) := by
  intro n
  by_cases hn : n = link
  · subst hn
    rcases hjt : (info n).jointType with _ | _ | _ <;>
      rcases cv1 with _ | _ <;> rcases ca1 with _ | _ <;>
      rcases cv2 with _ | _ <;> rcases ca2 with _ | _ <;>
      simp [downwardStep, hjt, Function.update_same,
        (h (info n).parent).1, (h (info n).parent).2]
  · rw [downwardStep_apply_ne info cv1 ca1 link n σ1 hn,
      downwardStep_apply_ne info cv2 ca2 link n σ2 hn]
    exact h n

lemma foldl_upward_apply_ne (info : Nat → LinkInfo) (cv ca : Bool) (links_ : List Nat)
    (idx : List Nat) (σ : Nat → Cart) (n : Nat)
    (h : ∀ i ∈ idx, links_.getD i 0 ≠ n) :
    (idx.foldl
      (fun τ i => upwardStep info cv ca (links_.getD i 0) (links_.getD (i - 1) 0) τ) σ) n
      = σ n := by
  induction idx generalizing σ with
  | nil => rfl
  | cons i idx ih =>
    rw [List.foldl_cons, ih _ (fun j hj => h j (List.mem_cons_of_mem i hj)),
      upwardStep_apply_ne _ _ _ _ _ _ _ (fun hc => h i (List.mem_cons_self i idx) hc.symm)]

lemma foldl_downward_apply_ne (info : Nat → LinkInfo) (cv ca : Bool) (links_ : List Nat)
    (idx : List Nat) (σ : Nat → Cart) (n : Nat)
    (h : ∀ i ∈ idx, links_.getD i 0 ≠ n) :
    (idx.foldl (fun τ i => downwardStep info cv ca (links_.getD i 0) τ) σ) n = σ n := by
  induction idx generalizing σ with
  | nil => rfl
  | cons i idx ih =>
    rw [List.foldl_cons, ih _ (fun j hj => h j (List.mem_cons_of_mem i hj)),
      downwardStep_apply_ne _ _ _ _ _ _ (fun hc => h i (List.mem_cons_self i idx) hc.symm)]

lemma foldl_upward_no_velocity (info : Nat → LinkInfo) (ca : Bool) (links_ : List Nat)
    (idx : List Nat) (σ : Nat → Cart) (n : Nat) :
    ((idx.foldl
      (fun τ i => upwardStep info false ca (links_.getD i 0) (links_.getD (i - 1) 0) τ) σ) n).w
        = (σ n).w
    ∧ ((idx.foldl
      (fun τ i => upwardStep info false ca (links_.getD i 0) (links_.getD (i - 1) 0) τ) σ) n).v
        = (σ n).v
    ∧ ((idx.foldl
      (fun τ i => upwardStep info false ca (links_.getD i 0) (links_.getD (i - 1) 0) τ) σ) n).dw
        = (σ n).dw
    ∧ ((idx.foldl
      (fun τ i => upwardStep info false ca (links_.getD i 0) (links_.getD (i - 1) 0) τ) σ) n).dv
        = (σ n).dv := by
  induction idx generalizing σ with
  | nil => exact ⟨rfl, rfl, rfl, rfl⟩
  | cons i idx ih =>
    rw [List.foldl_cons]
    have h1 := ih (upwardStep info false ca (links_.getD i 0) (links_.getD (i - 1) 0) σ)
    have h2 := upwardStep_no_velocity info ca (links_.getD i 0) (links_.getD (i - 1) 0) n σ
    exact ⟨h1.1.trans h2.1, h1.2.1.trans h2.2.1, h1.2.2.1.trans h2.2.2.1,
      h1.2.2.2.trans h2.2.2.2⟩

lemma foldl_downward_no_velocity (info : Nat → LinkInfo) (ca : Bool) (links_ : List Nat)
    (idx : List Nat) (σ : Nat → Cart) (n : Nat) :
    ((idx.foldl (fun τ i => downwardStep info false ca (links_.getD i 0) τ) σ) n).w = (σ n).w
    ∧ ((idx.foldl (fun τ i => downwardStep info false ca (links_.getD i 0) τ) σ) n).v = (σ n).v
    ∧ ((idx.foldl (fun τ i => downwardStep info false ca (links_.getD i 0) τ) σ) n).dw = (σ n).dw
    ∧ ((idx.foldl (fun τ i => downwardStep info false ca (links_.getD i 0) τ) σ) n).dv = (σ n).dv := by
  induction idx generalizing σ with
  | nil => exact ⟨rfl, rfl, rfl, rfl⟩
  | cons i idx ih =>
    rw [List.foldl_cons]
    have h1 := ih (downwardStep info false ca (links_.getD i 0) σ)
    have h2 := downwardStep_no_velocity info ca (links_.getD i 0) n σ
    exact ⟨h1.1.trans h2.1, h1.2.1.trans h2.2.1, h1.2.2.1.trans h2.2.2.1,
      h1.2.2.2.trans h2.2.2.2⟩

lemma foldl_upward_no_acceleration (info : Nat → LinkInfo) (cv : Bool) (links_ : List Nat)
    (idx : List Nat) (σ : Nat → Cart) (n : Nat) :
    ((idx.foldl
      (fun τ i => upwardStep info cv false (links_.getD i 0) (links_.getD (i - 1) 0) τ) σ) n).dw
        = (σ n).dw
    ∧ ((idx.foldl
      (fun τ i => upwardStep info cv false (links_.getD i 0) (links_.getD (i - 1) 0) τ) σ) n).dv
        = (σ n).dv := by
  induction idx generalizing σ with
  | nil => exact ⟨rfl, rfl⟩
  | cons i idx ih =>
    rw [List.foldl_cons]
    have h1 := ih (upwardStep info cv false (links_.getD i 0) (links_.getD (i - 1) 0) σ)
    have h2 := upwardStep_no_acceleration info cv (links_.getD i 0) (links_.getD (i - 1) 0) n σ
    exact ⟨h1.1.trans h2.1, h1.2.trans h2.2⟩

lemma foldl_downward_no_acceleration (info : Nat → LinkInfo) (cv : Bool) (links_ : List Nat)
    (idx : List Nat) (σ : Nat → Cart) (n : Nat) :
    ((idx.foldl (fun τ i => downwardStep info cv false (links_.getD i 0) τ) σ) n).dw = (σ n).dw
    ∧ ((idx.foldl (fun τ i => downwardStep info cv false (links_.getD i 0) τ) σ) n).dv = (σ n).dv := by
  induction idx generalizing σ with
  | nil => exact ⟨rfl, rfl⟩
  | cons i idx ih =>
    rw [List.foldl_cons]
    have h1 := ih (downwardStep info cv false (links_.getD i 0) σ)
    have h2 := downwardStep_no_acceleration info cv (links_.getD i 0) n σ
    exact ⟨h1.1.trans h2.1, h1.2.trans h2.2⟩

lemma foldl_upward_poseAgree (info : Nat → LinkInfo) (cv1 ca1 cv2 ca2 : Bool)
    (links_ : List Nat) (idx : List Nat) (σ1 σ2 : Nat → Cart) (h : poseAgree σ1 σ2) :
    poseAgree
      (idx.foldl
        (fun τ i => upwardStep info cv1 ca1 (links_.getD i 0) (links_.getD (i - 1) 0) τ) σ1)
      (idx.foldl
        (fun τ i => upwardStep info cv2 ca2 (links_.getD i 0) (links_.getD (i - 1) 0) τ) σ2) := by
  induction idx generalizing σ1 σ2 with
  | nil => exact h
  | cons i idx ih =>
    rw [List.foldl_cons, List.foldl_cons]
    exact ih _ _ (upwardStep_poseAgree info cv1 ca1 cv2 ca2 _ _ σ1 σ2 h)

lemma foldl_downward_poseAgree (info : Nat → LinkInfo) (cv1 ca1 cv2 ca2 : Bool)
    (links_ : List Nat) (idx : List Nat) (σ1 σ2 : Nat → Cart) (h : poseAgree σ1 σ2) :
    poseAgree
      (idx.foldl (fun τ i => downwardStep info cv1 ca1 (links_.getD i 0) τ) σ1)
      (idx.foldl (fun τ i => downwardStep info cv2 ca2 (links_.getD i 0) τ) σ2) := by
  induction idx generalizing σ1 σ2 with
  | nil => exact h
  | cons i idx ih =>
    rw [List.foldl_cons, List.foldl_cons]
    exact ih _ _ (downwardStep_poseAgree info cv1 ca1 cv2 ca2 _ σ1 σ2 h)

lemma getD_ne_head (links_ : List Nat) (hnd : links_.Nodup) (i : Nat) (h1 : 1 ≤ i)
    (h2 : i < links_.length) : links_.getD i 0 ≠ links_.getD 0 0 := by
  have h0 : 0 < links_.length := by omega
  rw [List.getD_eq_getElem links_ 0 h2, List.getD_eq_getElem links_ 0 h0]
  intro hc
  rw [hnd.getElem_inj_iff] at hc
  omega

lemma getD_mem (links_ : List Nat) (i : Nat) (h : i < links_.length) :
    links_.getD i 0 ∈ links_ := by
  rw [List.getD_eq_getElem links_ 0 h]
  exact List.getElem_mem h

/-- C7: the evaluator never rewrites the state of the reference link at
index 0; with `calcVelocity = false` the fields `w`, `v`, `dw`, `dv` of
every link are left unchanged (so requesting acceleration without
velocity computes nothing); with `calcAcceleration = false` the fields
`dw`, `dv` of every link are left unchanged; the computed `R` and `p`
do not depend on the flags (they are written unconditionally); links
outside the traversal sequence are untouched.  The traversal sequence,
the counter and the static link data are separate inputs that the
evaluator does not transform. -/
theorem c7_frame_effects (info : Nat → LinkInfo) (links_ : List Nat) (U : Int)
    (cv ca : Bool) (σ : Nat → Cart)
    (hnd : links_.Nodup) (hU : U.toNat < links_.length) :
    (calcForwardKinematics info links_ U cv ca σ (links_.getD 0 0) = σ (links_.getD 0 0))
    ∧ (∀ n, (calcForwardKinematics info links_ U false ca σ n).w = (σ n).w
        ∧ (calcForwardKinematics info links_ U false ca σ n).v = (σ n).v
        ∧ (calcForwardKinematics info links_ U false ca σ n).dw = (σ n).dw
        ∧ (calcForwardKinematics info links_ U false ca σ n).dv = (σ n).dv)
    ∧ (∀ n, (calcForwardKinematics info links_ U cv false σ n).dw = (σ n).dw
        ∧ (calcForwardKinematics info links_ U cv false σ n).dv = (σ n).dv)
    ∧ (∀ n, (calcForwardKinematics info links_ U cv ca σ n).R
          = (calcForwardKinematics info links_ U false false σ n).R
        ∧ (calcForwardKinematics info links_ U cv ca σ n).p
          = (calcForwardKinematics info links_ U false false σ n).p)
    ∧ (∀ n, n ∉ links_ → calcForwardKinematics info links_ U cv ca σ n = σ n) := by
  have hs1 : 1 ≤ (max 1 (U + 1)).toNat := by
    simpa using Int.toNat_le_toNat (le_max_left 1 (U + 1))
  refine ⟨?_, ?_, ?_, ?_, ?_⟩
  · have hup : ∀ i ∈ List.range' 1 U.toNat, links_.getD i 0 ≠ links_.getD 0 0 := by
      intro i hi
      rw [List.mem_range'_1] at hi
      exact getD_ne_head links_ hnd i (by omega) (by omega)
    have hdn : ∀ i ∈ List.range' ((max 1 (U + 1)).toNat)
        (links_.length - (max 1 (U + 1)).toNat), links_.getD i 0 ≠ links_.getD 0 0 := by
      intro i hi
      rw [List.mem_range'_1] at hi
      exact getD_ne_head links_ hnd i (by omega) (by omega)
    simp only [calcForwardKinematics]
    rw [foldl_downward_apply_ne info cv ca links_ _ _ _ hdn,
      foldl_upward_apply_ne info cv ca links_ _ _ _ hup]
  · intro n
    simp only [calcForwardKinematics]
    have hu := foldl_upward_no_velocity info ca links_ (List.range' 1 U.toNat) σ n
    have hd := foldl_downward_no_velocity info ca links_
      (List.range' ((max 1 (U + 1)).toNat) (links_.length - (max 1 (U + 1)).toNat))
      ((List.range' 1 U.toNat).foldl
        (fun τ i => upwardStep info false ca (links_.getD i 0) (links_.getD (i - 1) 0) τ) σ) n
    exact ⟨hd.1.trans hu.1, hd.2.1.trans hu.2.1, hd.2.2.1.trans hu.2.2.1,
      hd.2.2.2.trans hu.2.2.2⟩
  · intro n
    simp only [calcForwardKinematics]
    have hu := foldl_upward_no_acceleration info cv links_ (List.range' 1 U.toNat) σ n
    have hd := foldl_downward_no_acceleration info cv links_
      (List.range' ((max 1 (U + 1)).toNat) (links_.length - (max 1 (U + 1)).toNat))
      ((List.range' 1 U.toNat).foldl
        (fun τ i => upwardStep info cv false (links_.getD i 0) (links_.getD (i - 1) 0) τ) σ) n
    exact ⟨hd.1.trans hu.1, hd.2.trans hu.2⟩
  · intro n
    simp only [calcForwardKinematics]
    exact foldl_downward_poseAgree info cv ca false false links_ _ _ _
      (foldl_upward_poseAgree info cv ca false false links_ (List.range' 1 U.toNat) σ σ
        (fun _ => ⟨rfl, rfl⟩)) n
  · intro n hn
    have hup : ∀ i ∈ List.range' 1 U.toNat, links_.getD i 0 ≠ n := by
      intro i hi
      rw [List.mem_range'_1] at hi
      intro hc
      exact hn (hc ▸ getD_mem links_ i (by omega))
    have hdn : ∀ i ∈ List.range' ((max 1 (U + 1)).toNat)
        (links_.length - (max 1 (U + 1)).toNat), links_.getD i 0 ≠ n := by
      intro i hi
      rw [List.mem_range'_1] at hi
      intro hc
      exact hn (hc ▸ getD_mem links_ i (by omega))
    simp only [calcForwardKinematics]
    rw [foldl_downward_apply_ne info cv ca links_ _ _ _ hdn,
      foldl_upward_apply_ne info cv ca links_ _ _ _ hup]

/-- Witness for C7 on a concrete two-link traversal. -/
theorem c7_frame_effects_witness :
    calcForwardKinematics (fun _ => c4Info) [0, 1] 0 true true (fun _ => restCart)
      (([0, 1] : List Nat).getD 0 0) = restCart := by
  have h := c7_frame_effects (fun _ => c4Info) [0, 1] 0 true true (fun _ => restCart)
    (by decide) (by decide)
  exact h.1

/-!
Closed forms of the traversal builder (used by C1, C2 and C5).
-/

namespace Cnoid

lemma preorder_eq (t : Tree) : t.preorder = t.ident :: Tree.forestPreorder t.children := by
  rcases t with ⟨i, b, cs⟩
  rfl

lemma fpe_none (cs : List Tree) :
    forestPreorderExcept none cs = Tree.forestPreorder cs := by
  induction cs with
  | nil => rfl
  | cons u us ih => simp [forestPreorderExcept, ih, Tree.forestPreorder]

mutual

theorem traverse_down_eq (t : Tree) (as : List Ctx) (prev : Option Nat) (st : TravState) :
    traverse t as false true false prev st =
      ⟨st.links_ ++ t.ident :: forestPreorderExcept prev t.children,
        st.numUpwardConnections⟩ := by
  rcases t with ⟨i, b, cs⟩
  rcases as with _ | ⟨c, rest⟩ <;>
    · rw [traverse, traverseChildren_down_eq]
      simp [Tree.ident, Tree.children]
termination_by sizeOf t
decreasing_by
  all_goals first
  | omega
  | simp_wf <;> first
    | omega
    | simp <;> omega

theorem traverseChildren_down_eq (cs : List Tree) (ctx : List Ctx) (prev : Option Nat)
    (st : TravState) :
    traverseChildren cs ctx prev st =
      ⟨st.links_ ++ forestPreorderExcept prev cs, st.numUpwardConnections⟩ := by
  rcases cs with _ | ⟨child, rest⟩
  · rw [traverseChildren]
    simp [forestPreorderExcept]
  · rw [traverseChildren]
    by_cases hp : prev ≠ some child.ident
    · rw [if_pos hp, traverse_down_eq child ctx none st,
        traverseChildren_down_eq rest ctx prev _]
      simp [forestPreorderExcept, hp, fpe_none, preorder_eq]
    · rw [if_neg hp, traverseChildren_down_eq rest ctx prev st]
      simp [forestPreorderExcept, hp]
termination_by sizeOf cs
decreasing_by
  all_goals first
  | omega
  | simp_wf <;> first
    | omega
    | simp <;> omega

end

theorem traverse_up_eq (as : List Ctx) (t : Tree) (dd isUp : Bool) (prev : Option Nat)
    (st : TravState) :
    traverse t as true dd isUp prev st =
      ⟨st.links_ ++ t.ident ::
          (upChain t.ident t.body as
            ++ if dd then forestPreorderExcept prev t.children else []),
        st.numUpwardConnections + (if isUp then 1 else 0)
          + (specUpwardPathLength t.body as : Int)⟩ := by
  induction as generalizing t dd isUp prev st with
  | nil =>
    rcases t with ⟨i, b, cs⟩
    rw [traverse]
    rcases dd with _ | _
    · rcases isUp with _ | _ <;>
        simp [Tree.ident, Tree.body, Tree.children, upChain, specUpwardPathLength]
    · rw [traverseChildren_down_eq]
      rcases isUp with _ | _ <;>
        simp [Tree.ident, Tree.body, Tree.children, upChain, specUpwardPathLength]
  | cons c rest ih =>
    rcases t with ⟨i, b, cs⟩
    rw [traverse]
    by_cases hb : c.body = b
    · rw [dif_pos ⟨rfl, hb⟩, ih (Tree.node c.ident c.body c.children) true true (some i) _]
      rcases dd with _ | _
      · rcases isUp with _ | _ <;>
          simp [Tree.ident, Tree.body, Tree.children, upChain, specUpwardPathLength, hb,
            List.append_assoc] <;>
          first
          | omega
          | (push_cast <;> ring)
      · rw [traverseChildren_down_eq]
        rcases isUp with _ | _ <;>
          simp [Tree.ident, Tree.body, Tree.children, upChain, specUpwardPathLength, hb,
            List.append_assoc] <;>
          first
          | omega
          | (push_cast <;> ring)
    · rw [dif_neg (fun h => hb h.2)]
      rcases dd with _ | _
      · rcases isUp with _ | _ <;>
          simp [Tree.ident, Tree.body, Tree.children, upChain, specUpwardPathLength, hb]
      · rw [traverseChildren_down_eq]
        rcases isUp with _ | _ <;>
          simp [Tree.ident, Tree.body, Tree.children, upChain, specUpwardPathLength, hb]

end Cnoid

namespace Cnoid

lemma find_up_eq (t : Tree) (as : List Ctx) (dd : Bool) :
    find t as true dd =
      ⟨t.ident :: (upChain t.ident t.body as
          ++ if dd then Tree.forestPreorder t.children else []),
        (specUpwardPathLength t.body as : Int)⟩ := by
  rw [find, traverse_up_eq]
  simp [fpe_none]

/-- C2: after `find` with the upward flag set, the upward connection
counter equals the length of the parent pointer path from the reference
link toward the structural root, stopping at a missing parent or at a
parent of a different mechanism; the counter is rebuilt from zero on
every run (the result does not depend on any previous state). -/
theorem c2_upward_count (t : Tree) (as : List Ctx) (dd : Bool) :
    (find t as true dd).numUpwardConnections = (specUpwardPathLength t.body as : Int) := by
  rw [find_up_eq]

/-- C5 counterexample: reference link 1 whose parent 0 also has another
child 2 (a single mechanism).  `find` with `includeUpward` and without
`includeDownward` produces the sequence `[1, 0, 2]`, which is not the
parent chain `[1, 0]`: the subtree of the sibling 2 is traversed even
though the downward flag was off. -/
theorem c5_counterexample :
    (find (Tree.node 1 0 [])
        [⟨0, 0, [Tree.node 1 0 [], Tree.node 2 0 []]⟩] true false).links_ = [1, 0, 2]
    ∧ ([1, 0, 2] : List Nat) ≠ [1, 0] := by
  constructor
  · rw [find_up_eq]
    rfl
  · simp

/-- C5 amended: once the traversal steps upward, descendant recursion
from the ancestors happens unconditionally (the source passes the
literal `true` for the downward flag of the upward recursive call):
with `includeUpward = true` and `includeDownward = false` the sequence
is the reference link followed by the upward chain in which every
ancestor contributes itself and the subtrees of its children other
than the link it was entered from, while the children of the reference
link itself are omitted; setting `includeDownward` additionally appends
the subtrees of the reference link. -/
theorem c5_ancestor_subtrees_amended (t : Tree) (as : List Ctx) :
    (find t as true false).links_ = t.ident :: upChain t.ident t.body as
    ∧ (find t as true true).links_ =
        t.ident :: (upChain t.ident t.body as ++ Tree.forestPreorder t.children) := by
  constructor <;> (rw [find_up_eq]; simp)

end Cnoid

/-!
Permutation argument for full coverage of `find` (C1).
-/

namespace Cnoid

open List

lemma ident_mem_preorder (t : Tree) : t.ident ∈ t.preorder := by
  rw [preorder_eq]
  exact List.mem_cons_self _ _

lemma fpe_of_forall_ne (x : Nat) (cs : List Tree) (h : ∀ u ∈ cs, u.ident ≠ x) :
    forestPreorderExcept (some x) cs = Tree.forestPreorder cs := by
  induction cs with
  | nil => rfl
  | cons u us ih =>
    have hu : (some x : Option Nat) ≠ some u.ident := by
      simp
      exact fun e => h u (List.Mem.head _) e.symm
    simp only [forestPreorderExcept, if_pos hu, Tree.forestPreorder]
    rw [ih (fun v hv => h v (List.Mem.tail _ hv))]

lemma preorder_infix_forest (t : Tree) (cs : List Tree) (h : t ∈ cs) :
    List.IsInfix t.preorder (Tree.forestPreorder cs) := by
  induction cs with
  | nil => cases h
  | cons u us ih =>
    cases h with
    | head =>
      exact ⟨[], Tree.forestPreorder us, rfl⟩
    | tail _ h =>
      obtain ⟨s, t', he⟩ := ih h
      refine ⟨Tree.preorder u ++ s, t', ?_⟩
      simp only [Tree.forestPreorder]
      rw [← he]
      simp [List.append_assoc]

lemma preorder_infix_plug (t : Tree) (as : List Ctx) (h : ZWF t as) :
    List.IsInfix t.preorder ((plug t as).preorder) := by
  induction as generalizing t with
  | nil => exact List.infix_rfl
  | cons c rest ih =>
    obtain ⟨hmem, hwf⟩ := h
    have h1 : List.IsInfix t.preorder ((Tree.node c.ident c.body c.children).preorder) :=
      List.infix_cons (preorder_infix_forest t c.children hmem)
    exact h1.trans (ih _ hwf)

lemma perm_extract (t : Tree) (cs : List Tree) (hmem : t ∈ cs)
    (hnd : (Tree.forestPreorder cs).Nodup) :
    (Tree.forestPreorder cs).Perm
      (forestPreorderExcept (some t.ident) cs ++ t.preorder) := by
  induction cs with
  | nil => cases hmem
  | cons u us ih =>
    have hsplit : Tree.forestPreorder (u :: us) =
        Tree.preorder u ++ Tree.forestPreorder us := rfl
    have hdis : List.Disjoint (Tree.preorder u) (Tree.forestPreorder us) :=
      List.disjoint_of_nodup_append (hsplit ▸ hnd)
    cases hmem with
    | head =>
      have hne : ∀ v ∈ us, v.ident ≠ t.ident := by
        intro v hv he
        exact hdis (ident_mem_preorder t)
          (((preorder_infix_forest v us hv).sublist.subset) (he ▸ ident_mem_preorder v))
      have hh : ¬((some t.ident : Option Nat) ≠ some t.ident) := by simp
      calc Tree.forestPreorder (t :: us)
          = Tree.preorder t ++ Tree.forestPreorder us := rfl
        _ ~ Tree.forestPreorder us ++ Tree.preorder t := List.perm_append_comm
        _ = forestPreorderExcept (some t.ident) (t :: us) ++ Tree.preorder t := by
            simp only [forestPreorderExcept, if_neg hh]
            rw [fpe_of_forall_ne _ _ hne]
    | tail _ h =>
      have hndu : (Tree.forestPreorder us).Nodup := by
        rw [hsplit] at hnd
        exact hnd.of_append_right
      have hne : (some t.ident : Option Nat) ≠ some u.ident := by
        simp
        intro he
        exact hdis (he ▸ ident_mem_preorder u)
          (((preorder_infix_forest t us h).sublist.subset) (ident_mem_preorder t))
      calc Tree.forestPreorder (u :: us)
          = Tree.preorder u ++ Tree.forestPreorder us := rfl
        _ ~ Tree.preorder u ++ (forestPreorderExcept (some t.ident) us ++ Tree.preorder t) :=
            List.Perm.append_left _ (ih h hndu)
        _ = (Tree.preorder u ++ forestPreorderExcept (some t.ident) us) ++ Tree.preorder t := by
            rw [List.append_assoc]
        _ = forestPreorderExcept (some t.ident) (u :: us) ++ Tree.preorder t := by
            simp only [forestPreorderExcept, if_pos hne]

lemma find_perm (as : List Ctx) : ∀ t : Tree, ZWF t as → ((plug t as).preorder).Nodup →
    (∀ c ∈ as, c.body = t.body) →
    (t.ident :: (upChain t.ident t.body as ++ Tree.forestPreorder t.children)).Perm
      ((plug t as).preorder) := by
  induction as with
  | nil =>
    intro t _ _ _
    simp [upChain, plug, preorder_eq]
  | cons c rest ih =>
    intro t hwf hnd hbody
    obtain ⟨hmem, hwf'⟩ := hwf
    have hb : c.body = t.body := hbody c (List.Mem.head _)
    have hplug : plug t (c :: rest) = plug (Tree.node c.ident c.body c.children) rest := rfl
    have hbody' : ∀ c' ∈ rest, c'.body = (Tree.node c.ident c.body c.children).body := by
      intro c' hc'
      rw [hbody c' (List.Mem.tail _ hc')]
      exact hb.symm
    have hnd' : ((plug (Tree.node c.ident c.body c.children) rest).preorder).Nodup :=
      hplug ▸ hnd
    have ihp := ih (Tree.node c.ident c.body c.children) hwf' hnd' hbody'
    have hinf := preorder_infix_plug (Tree.node c.ident c.body c.children) rest hwf'
    have hndT : ((Tree.node c.ident c.body c.children).preorder).Nodup :=
      hnd'.sublist hinf.sublist
    have hndF : (Tree.forestPreorder c.children).Nodup := by
      rw [preorder_eq] at hndT
      exact hndT.of_cons
    have hx := perm_extract t c.children hmem hndF
    rw [hplug]
    simp only [upChain, if_pos hb]
    calc t.ident :: ((c.ident ::
            (upChain c.ident c.body rest ++ forestPreorderExcept (some t.ident) c.children))
          ++ Tree.forestPreorder t.children)
        = t.ident :: c.ident ::
            ((upChain c.ident c.body rest ++ forestPreorderExcept (some t.ident) c.children)
              ++ Tree.forestPreorder t.children) := rfl
      _ ~ c.ident :: t.ident ::
            ((upChain c.ident c.body rest ++ forestPreorderExcept (some t.ident) c.children)
              ++ Tree.forestPreorder t.children) := List.Perm.swap _ _ _
      _ ~ c.ident :: (upChain c.ident c.body rest
            ++ (forestPreorderExcept (some t.ident) c.children ++ Tree.preorder t)) := by
            apply List.Perm.cons
            rw [preorder_eq t, ← List.append_assoc]
            exact (List.perm_middle).symm
      _ ~ c.ident :: (upChain c.ident c.body rest ++ Tree.forestPreorder c.children) := by
            apply List.Perm.cons
            exact List.Perm.append_left _ hx.symm
      _ ~ (plug (Tree.node c.ident c.body c.children) rest).preorder := ihp

/-- C1: on a tree structured mechanism (all links share one body and
all identifiers are distinct), `find` from any reference link with both
direction flags produces a sequence that is a permutation of the full
preorder listing of the mechanism tree, hence contains every link of
the connected mechanism exactly once, and its entry at index 0 is the
reference link. -/
theorem c1_build_full_coverage (t : Tree) (as : List Ctx)
    (hwf : ZWF t as) (hnd : ((plug t as).preorder).Nodup)
    (hbody : ∀ c ∈ as, c.body = t.body) :
    ((find t as true true).links_).Perm ((plug t as).preorder)
    ∧ (find t as true true).links_.head? = some t.ident := by
  have hseq : (find t as true true).links_ =
      t.ident :: (upChain t.ident t.body as ++ Tree.forestPreorder t.children) := by
    rw [find_up_eq]
    simp
  rw [hseq]
  exact ⟨find_perm as t hwf hnd hbody, rfl⟩

/-- Witness for C1 on a three link mechanism. -/
theorem c1_build_full_coverage_witness :
    ((find (Tree.node 1 0 [])
        [⟨0, 0, [Tree.node 1 0 [], Tree.node 2 0 []]⟩] true true).links_).Perm
      ((plug (Tree.node 1 0 [])
        [⟨0, 0, [Tree.node 1 0 [], Tree.node 2 0 []]⟩]).preorder)
    ∧ (find (Tree.node 1 0 [])
        [⟨0, 0, [Tree.node 1 0 [], Tree.node 2 0 []]⟩] true true).links_.head?
      = some (Tree.node 1 0 []).ident :=
  c1_build_full_coverage (Tree.node 1 0 [])
    [⟨0, 0, [Tree.node 1 0 [], Tree.node 2 0 []]⟩]
    ⟨List.Mem.head _, trivial⟩ (by decide)
    (by intro c hc; simp at hc; rw [hc]; rfl)

end Cnoid

/-!
Subtree occurrence and edge lemmas (used by C9).
-/

namespace Cnoid

open List

mutual

theorem preorder_infix_of_subtree (u t : Tree) (h : SubtreeOf u t) :
    List.IsInfix u.preorder t.preorder :=
  match t, h with
  | .node i b cs, h => by
    have h' : u = Tree.node i b cs ∨ SubtreeOfForest u cs := h
    rcases h' with h' | h'
    · subst h'
      exact List.infix_rfl
    · exact List.infix_cons (preorder_infix_of_subtreeForest u cs h')
termination_by sizeOf t
decreasing_by
  simp_wf <;> omega

theorem preorder_infix_of_subtreeForest (u : Tree) (cs : List Tree)
    (h : SubtreeOfForest u cs) : List.IsInfix u.preorder (Tree.forestPreorder cs) :=
  match cs, h with
  | [], h => h.elim
  | w :: ws, h => by
    have h' : SubtreeOf u w ∨ SubtreeOfForest u ws := h
    rcases h' with h' | h'
    · exact (preorder_infix_of_subtree u w h').trans (List.prefix_append _ _).isInfix
    · exact (preorder_infix_of_subtreeForest u ws h').trans (List.suffix_append _ _).isInfix
termination_by sizeOf cs
decreasing_by
  all_goals simp_wf <;> omega

end

theorem exists_mem_of_subtreeForest (u : Tree) (cs : List Tree) (h : SubtreeOfForest u cs) :
    ∃ w ∈ cs, SubtreeOf u w := by
  induction cs with
  | nil => exact h.elim
  | cons w ws ih =>
    have h' : SubtreeOf u w ∨ SubtreeOfForest u ws := h
    rcases h' with h' | h'
    · exact ⟨w, List.Mem.head _, h'⟩
    · obtain ⟨w', hw', hs⟩ := ih h'
      exact ⟨w', List.Mem.tail _ hw', hs⟩

theorem subtreeForest_of_subtree_mem {s w : Tree} {cs : List Tree}
    (h1 : SubtreeOf s w) (h2 : w ∈ cs) : SubtreeOfForest s cs := by
  induction cs with
  | nil => cases h2
  | cons v vs ih =>
    cases h2 with
    | head => exact Or.inl h1
    | tail _ h2 => exact Or.inr (ih h2)

theorem subtree_refl (t : Tree) : SubtreeOf t t := by
  rcases t with ⟨i, b, cs⟩
  exact Or.inl rfl

theorem subtree_trans (s u t : Tree) (h1 : SubtreeOf s u) (h2 : SubtreeOf u t) :
    SubtreeOf s t :=
  match t, h2 with
  | .node i b cs, h2 => by
    have h2' : u = Tree.node i b cs ∨ SubtreeOfForest u cs := h2
    rcases h2' with h2' | h2'
    · subst h2'
      exact h1
    · obtain ⟨w, hw, hsub⟩ := exists_mem_of_subtreeForest u cs h2'
      exact Or.inr (subtreeForest_of_subtree_mem (subtree_trans s u w h1 hsub) hw)
termination_by sizeOf t
decreasing_by
  simp_wf
  have := List.sizeOf_lt_of_mem hw
  omega

theorem zwf_subtree (t : Tree) (as : List Ctx) (h : ZWF t as) :
    SubtreeOf t (plug t as) := by
  induction as generalizing t with
  | nil => exact subtree_refl t
  | cons c rest ih =>
    obtain ⟨hmem, hwf⟩ := h
    exact subtree_trans t (Tree.node c.ident c.body c.children) _
      (Or.inr (subtreeForest_of_subtree_mem (subtree_refl t) hmem)) (ih _ hwf)

theorem ident_mem_of_subtree (u t : Tree) (h : SubtreeOf u t) : u.ident ∈ t.preorder :=
  (preorder_infix_of_subtree u t h).sublist.subset (ident_mem_preorder u)

theorem nodup_focus (t : Tree) (as : List Ctx) (hwf : ZWF t as)
    (hnd : ((plug t as).preorder).Nodup) : t.preorder.Nodup :=
  hnd.sublist (preorder_infix_plug t as hwf).sublist

theorem nodup_subtree (u t : Tree) (hs : SubtreeOf u t) (hnd : t.preorder.Nodup) :
    u.preorder.Nodup :=
  hnd.sublist (preorder_infix_of_subtree u t hs).sublist

theorem mem_pre_inj (cs : List Tree) (hnd : (Tree.forestPreorder cs).Nodup)
    (u v : Tree) (hu : u ∈ cs) (hv : v ∈ cs) (x : Nat)
    (hxu : x ∈ u.preorder) (hxv : x ∈ v.preorder) : u = v := by
  induction cs with
  | nil => cases hu
  | cons w ws ih =>
    have hsplit : Tree.forestPreorder (w :: ws) =
        Tree.preorder w ++ Tree.forestPreorder ws := rfl
    have hdis : List.Disjoint (Tree.preorder w) (Tree.forestPreorder ws) :=
      List.disjoint_of_nodup_append (hsplit ▸ hnd)
    have hndw : (Tree.forestPreorder ws).Nodup := by
      rw [hsplit] at hnd
      exact hnd.of_append_right
    cases hu with
    | head =>
      cases hv with
      | head => rfl
      | tail _ hv =>
        exact absurd ((preorder_infix_of_subtreeForest v ws
          (subtreeForest_of_subtree_mem (subtree_refl v) hv)).sublist.subset hxv)
          (hdis hxu)
    | tail _ hu =>
      cases hv with
      | head =>
        exact absurd ((preorder_infix_of_subtreeForest u ws
          (subtreeForest_of_subtree_mem (subtree_refl u) hu)).sublist.subset hxu)
          (hdis hxv)
      | tail _ hv => exact ih hndw hu hv

end Cnoid

namespace Cnoid

theorem mem_forestChildPairs_of_mem (p : Nat) (u : Tree) (cs : List Tree) (h : u ∈ cs) :
    (p, u.ident) ∈ forestChildPairs p cs := by
  induction cs with
  | nil => cases h
  | cons w ws ih =>
    cases h with
    | head => exact List.Mem.head _
    | tail _ h => exact List.Mem.tail _ (List.mem_append_right _ (ih h))

theorem mem_childPairs_of_child (i b : Nat) (u : Tree) (cs : List Tree) (h : u ∈ cs) :
    (i, u.ident) ∈ childPairs (Tree.node i b cs) :=
  mem_forestChildPairs_of_mem i u cs h

theorem childPairs_mem_lift (p : Nat) (w : Tree) (cs : List Tree) (pr : Nat × Nat)
    (hw : w ∈ cs) (hpr : pr ∈ childPairs w) : pr ∈ forestChildPairs p cs := by
  induction cs with
  | nil => cases hw
  | cons v vs ih =>
    cases hw with
    | head => exact List.Mem.tail _ (List.mem_append_left _ hpr)
    | tail _ hw => exact List.Mem.tail _ (List.mem_append_right _ (ih hw))

theorem childPairs_subset_of_subtree (u t : Tree) (h : SubtreeOf u t) (pr : Nat × Nat)
    (hpr : pr ∈ childPairs u) : pr ∈ childPairs t :=
  match t, h with
  | .node i b cs, h => by
    have h' : u = Tree.node i b cs ∨ SubtreeOfForest u cs := h
    rcases h' with h' | h'
    · subst h'
      exact hpr
    · obtain ⟨w, hw, hs⟩ := exists_mem_of_subtreeForest u cs h'
      exact childPairs_mem_lift i w cs pr hw (childPairs_subset_of_subtree u w hs pr hpr)
termination_by sizeOf t
decreasing_by
  simp_wf
  have := List.sizeOf_lt_of_mem hw
  omega

mutual

theorem childPairs_mem_preorder (t : Tree) (pr : Nat × Nat) (h : pr ∈ childPairs t) :
    pr.1 ∈ t.preorder ∧ pr.2 ∈ t.preorder :=
  match t, h with
  | .node i b cs, h => by
    have h2 := forestChildPairs_mem_preorder i cs pr h
    refine ⟨?_, List.Mem.tail _ h2.2⟩
    rcases h2.1 with h1 | h1
    · rw [h1]
      exact List.Mem.head _
    · exact List.Mem.tail _ h1

theorem forestChildPairs_mem_preorder (p : Nat) (cs : List Tree) (pr : Nat × Nat)
    (h : pr ∈ forestChildPairs p cs) :
    (pr.1 = p ∨ pr.1 ∈ Tree.forestPreorder cs) ∧ pr.2 ∈ Tree.forestPreorder cs :=
  match cs, h with
  | w :: ws, h => by
    have hshape : Tree.forestPreorder (w :: ws) =
        Tree.preorder w ++ Tree.forestPreorder ws := rfl
    rcases h with _ | ⟨_, h⟩
    · refine ⟨Or.inl rfl, ?_⟩
      rw [hshape]
      exact List.mem_append_left _ (ident_mem_preorder w)
    · rcases List.mem_append.1 h with h | h
      · have h2 := childPairs_mem_preorder w pr h
        rw [hshape]
        exact ⟨Or.inr (List.mem_append_left _ h2.1), List.mem_append_left _ h2.2⟩
      · have h2 := forestChildPairs_mem_preorder p ws pr h
        rw [hshape]
        refine ⟨?_, List.mem_append_right _ h2.2⟩
        rcases h2.1 with h1 | h1
        · exact Or.inl h1
        · exact Or.inr (List.mem_append_right _ h1)

end

end Cnoid

namespace Cnoid

/-!
Specialised equations of the root adjacent search.
-/

lemma fral_eq_root (i b : Nat) (cs : List Tree) (as : List Ctx) (prev : Option Nat)
    (root : Nat) (flag : Bool) (hroot : i = root) :
    findRootAdjacentLink (Tree.node i b cs) as prev root flag = (prev, flag) := by
  rw [findRootAdjacentLink.eq_def]
  simp only [if_pos hroot]

lemma fral_eq_nil (i b : Nat) (cs : List Tree) (prev : Option Nat) (root : Nat)
    (flag : Bool) (hroot : ¬ i = root) :
    findRootAdjacentLink (Tree.node i b cs) [] prev root flag =
      findAdjacentAmongChildren cs [⟨i, b, cs⟩] prev i root := by
  rw [findRootAdjacentLink.eq_def]
  simp only [if_neg hroot]

lemma fral_eq_cons_pos (i b : Nat) (cs : List Tree) (c : Ctx) (rest : List Ctx)
    (prev : Option Nat) (root : Nat) (flag : Bool)
    (hroot : ¬ i = root) (hcond : flag = true ∧ some c.ident ≠ prev) :
    findRootAdjacentLink (Tree.node i b cs) (c :: rest) prev root flag =
      match findRootAdjacentLink (.node c.ident c.body c.children) rest (some i) root true with
      | (some found, fl) => (some found, fl)
      | (none, _) => findAdjacentAmongChildren cs (⟨i, b, cs⟩ :: c :: rest) prev i root := by
  rw [findRootAdjacentLink.eq_def]
  simp only [if_neg hroot, dif_pos hcond]

lemma fral_eq_cons_neg (i b : Nat) (cs : List Tree) (c : Ctx) (rest : List Ctx)
    (prev : Option Nat) (root : Nat) (flag : Bool)
    (hroot : ¬ i = root) (hcond : ¬ (flag = true ∧ some c.ident ≠ prev)) :
    findRootAdjacentLink (Tree.node i b cs) (c :: rest) prev root flag =
      findAdjacentAmongChildren cs (⟨i, b, cs⟩ :: c :: rest) prev i root := by
  rw [findRootAdjacentLink.eq_def]
  simp only [if_neg hroot, dif_neg hcond]

lemma faac_eq_nil (ctx : List Ctx) (prev : Option Nat) (self root : Nat) :
    findAdjacentAmongChildren [] ctx prev self root = (none, false) := by
  rw [findAdjacentAmongChildren.eq_def]

lemma faac_eq_cons (child : Tree) (restc : List Tree) (ctx : List Ctx)
    (prev : Option Nat) (self root : Nat) :
    findAdjacentAmongChildren (child :: restc) ctx prev self root =
      if prev ≠ some child.ident then
        match findRootAdjacentLink child ctx (some self) root false with
        | (some found, fl) => (some found, fl)
        | (none, _) => findAdjacentAmongChildren restc ctx prev self root
      else findAdjacentAmongChildren restc ctx prev self root := by
  rw [findAdjacentAmongChildren.eq_def]

mutual

/-- Invariant of the root adjacent search entered with the upward flag
set: any found link is adjacent to the searched front link (`root`),
the final flag tells the direction of that edge, and when the flag is
`true` the found link roots a subtree containing the target `tgt`. -/
theorem fral_adj_true (t : Tree) (as : List Ctx) (prev : Option Nat) (root tgt : Nat)
    (T : Tree) (hwf : ZWF t as) (hplug : plug t as = T)
    (htgt : tgt ∈ t.preorder)
    (hprev : match prev with
      | none => True
      | some p => ∃ u : Tree, SubtreeOf u T ∧ u.ident = p
            ∧ (t.ident, p) ∈ childPairs T ∧ tgt ∈ u.preorder) :
    ∀ x fl, findRootAdjacentLink t as prev root true = (some x, fl) →
      (fl = true → ∃ u : Tree, SubtreeOf u T ∧ u.ident = x
        ∧ (root, x) ∈ childPairs T ∧ tgt ∈ u.preorder)
      ∧ (fl = false → (x, root) ∈ childPairs T) :=
  match t, as, hwf, htgt, hprev with
  | .node i b cs, [], hwf, htgt, hprev => by
    intro x fl heq
    by_cases hroot : i = root
    · rw [fral_eq_root i b cs [] prev root true hroot] at heq
      rcases prev with _ | p
      · simp at heq
      · have hpx : (some p : Option Nat) = some x := congrArg Prod.fst heq
        have hffl : true = fl := congrArg Prod.snd heq
        have hpx' : p = x := by injection hpx
        constructor
        · intro _
          obtain ⟨u, hu1, hu2, hu3, hu4⟩ := hprev
          exact ⟨u, hu1, hpx' ▸ hu2, by rw [← hroot, ← hpx']; exact hu3, hu4⟩
        · intro hfl
          exact absurd (hffl.trans hfl) (by simp)
    · have hsubT : SubtreeOf (Tree.node i b cs) T := by
        rw [← hplug]
        exact zwf_subtree _ _ hwf
      rw [fral_eq_nil i b cs prev root true hroot] at heq
      refine faac_adj cs (⟨i, b, cs⟩ :: []) prev i root tgt T ?_ x fl heq
      intro u hu
      refine ⟨⟨hu, trivial⟩, hplug, ?_⟩
      exact childPairs_subset_of_subtree _ _ hsubT _
        (mem_childPairs_of_child i b u cs hu)
  | .node i b cs, c :: rest, hwf, htgt, hprev => by
    intro x fl heq
    by_cases hroot : i = root
    · rw [fral_eq_root i b cs (c :: rest) prev root true hroot] at heq
      rcases prev with _ | p
      · simp at heq
      · have hpx : (some p : Option Nat) = some x := congrArg Prod.fst heq
        have hffl : true = fl := congrArg Prod.snd heq
        have hpx' : p = x := by injection hpx
        constructor
        · intro _
          obtain ⟨u, hu1, hu2, hu3, hu4⟩ := hprev
          exact ⟨u, hu1, hpx' ▸ hu2, by rw [← hroot, ← hpx']; exact hu3, hu4⟩
        · intro hfl
          exact absurd (hffl.trans hfl) (by simp)
    · have hsubT : SubtreeOf (Tree.node i b cs) T := by
        rw [← hplug]
        exact zwf_subtree _ _ hwf
      by_cases hp : some c.ident ≠ prev
      · rw [fral_eq_cons_pos i b cs c rest prev root true hroot ⟨rfl, hp⟩] at heq
        rcases hres : findRootAdjacentLink (.node c.ident c.body c.children) rest
            (some i) root true with ⟨o, flu⟩
        rw [hres] at heq
        have hsubc : SubtreeOf (Tree.node c.ident c.body c.children) T := by
          rw [← hplug]
          exact zwf_subtree _ _ hwf.2
        have hedge : (c.ident, i) ∈ childPairs T :=
          childPairs_subset_of_subtree _ _ hsubc _
            (mem_childPairs_of_child c.ident c.body _ c.children hwf.1)
        have hmemt : SubtreeOf (Tree.node i b cs) (Tree.node c.ident c.body c.children) :=
          Or.inr (subtreeForest_of_subtree_mem (subtree_refl _) hwf.1)
        rcases o with _ | y
        · have heq2 : findAdjacentAmongChildren cs (⟨i, b, cs⟩ :: c :: rest)
              prev i root = (some x, fl) := heq
          refine faac_adj cs (⟨i, b, cs⟩ :: c :: rest) prev i root tgt T ?_ x fl heq2
          intro u hu
          refine ⟨⟨hu, hwf⟩, hplug, ?_⟩
          exact childPairs_subset_of_subtree _ _ hsubT _
            (mem_childPairs_of_child i b u cs hu)
        · have heq2 : ((some y : Option Nat), flu) = (some x, fl) := heq
          have hyx : y = x := by
            have h3 := congrArg Prod.fst heq2
            simpa using h3
          have hfl : flu = fl := congrArg Prod.snd heq2
          rw [← hyx, ← hfl]
          refine fral_adj_true (.node c.ident c.body c.children) rest (some i) root tgt
            T hwf.2 hplug ?_ ?_ y flu hres
          · exact ((preorder_infix_of_subtree _ _ hmemt).sublist.subset) htgt
          · exact ⟨Tree.node i b cs, hsubT, rfl, hedge, htgt⟩
      · rw [fral_eq_cons_neg i b cs c rest prev root true hroot
            (fun hc => hp hc.2)] at heq
        refine faac_adj cs (⟨i, b, cs⟩ :: c :: rest) prev i root tgt T ?_ x fl heq
        intro u hu
        refine ⟨⟨hu, hwf⟩, hplug, ?_⟩
        exact childPairs_subset_of_subtree _ _ hsubT _
          (mem_childPairs_of_child i b u cs hu)
termination_by (as.length + 1, sizeOf t)
decreasing_by
  all_goals simp_wf
  all_goals first
  | (apply Prod.Lex.left
     omega)
  | (apply Prod.Lex.left
     simp <;> omega)

/-- Invariant of the root adjacent search entered with the upward flag
cleared. -/
theorem fral_adj_false (t : Tree) (as : List Ctx) (prev : Option Nat) (root tgt : Nat)
    (T : Tree) (hwf : ZWF t as) (hplug : plug t as = T)
    (hprev : match prev with
      | none => True
      | some p => (p, t.ident) ∈ childPairs T) :
    ∀ x fl, findRootAdjacentLink t as prev root false = (some x, fl) →
      (fl = true → ∃ u : Tree, SubtreeOf u T ∧ u.ident = x
        ∧ (root, x) ∈ childPairs T ∧ tgt ∈ u.preorder)
      ∧ (fl = false → (x, root) ∈ childPairs T) :=
  match t, hwf, hprev with
  | .node i b cs, hwf, hprev => by
    intro x fl heq
    by_cases hroot : i = root
    · rw [fral_eq_root i b cs as prev root false hroot] at heq
      rcases prev with _ | p
      · simp at heq
      · have hpx : (some p : Option Nat) = some x := congrArg Prod.fst heq
        have hffl : false = fl := congrArg Prod.snd heq
        have hpx' : p = x := by injection hpx
        constructor
        · intro hfl
          exact absurd (hffl.trans hfl) (by simp)
        · intro _
          rw [← hroot, ← hpx']
          exact hprev
    · have hsubT : SubtreeOf (Tree.node i b cs) T := by
        rw [← hplug]
        exact zwf_subtree _ _ hwf
      have hchild : ∀ u ∈ cs, ZWF u (⟨i, b, cs⟩ :: as) ∧ plug u (⟨i, b, cs⟩ :: as) = T
          ∧ (i, u.ident) ∈ childPairs T := by
        intro u hu
        refine ⟨⟨hu, ?_⟩, hplug, ?_⟩
        · rcases as with _ | ⟨c, rest⟩
          · exact trivial
          · exact hwf
        · exact childPairs_subset_of_subtree _ _ hsubT _
            (mem_childPairs_of_child i b u cs hu)
      rcases as with _ | ⟨c, rest⟩
      · rw [fral_eq_nil i b cs prev root false hroot] at heq
        exact faac_adj cs (⟨i, b, cs⟩ :: []) prev i root tgt T hchild x fl heq
      · rw [fral_eq_cons_neg i b cs c rest prev root false hroot (by simp)] at heq
        exact faac_adj cs (⟨i, b, cs⟩ :: c :: rest) prev i root tgt T hchild x fl heq
termination_by ((0 : Nat), sizeOf t)
decreasing_by
  all_goals simp_wf
  all_goals apply Prod.Lex.right
  all_goals first
  | omega
  | simp <;> omega

/-- Invariant of the child loop of the root adjacent search. -/
theorem faac_adj (cs : List Tree) (ctx : List Ctx) (excludePrev : Option Nat)
    (self root tgt : Nat) (T : Tree)
    (hchild : ∀ u ∈ cs, ZWF u ctx ∧ plug u ctx = T ∧ (self, u.ident) ∈ childPairs T) :
    ∀ x fl, findAdjacentAmongChildren cs ctx excludePrev self root = (some x, fl) →
      (fl = true → ∃ u : Tree, SubtreeOf u T ∧ u.ident = x
        ∧ (root, x) ∈ childPairs T ∧ tgt ∈ u.preorder)
      ∧ (fl = false → (x, root) ∈ childPairs T) :=
  match cs with
  | [] => by
    intro x fl heq
    rw [faac_eq_nil] at heq
    simp at heq
  | child :: restc => by
    intro x fl heq
    rw [faac_eq_cons] at heq
    by_cases hp : excludePrev ≠ some child.ident
    · rw [if_pos hp] at heq
      rcases hres : findRootAdjacentLink child ctx (some self) root false with ⟨o, flc⟩
      rw [hres] at heq
      rcases o with _ | y
      · have heq2 : findAdjacentAmongChildren restc ctx excludePrev self root
            = (some x, fl) := heq
        exact faac_adj restc ctx excludePrev self root tgt T
          (fun u hu => hchild u (List.Mem.tail _ hu)) x fl heq2
      · have heq2 : ((some y : Option Nat), flc) = (some x, fl) := heq
        have hyx : y = x := by
          have h3 := congrArg Prod.fst heq2
          simpa using h3
        have hfl : flc = fl := congrArg Prod.snd heq2
        rw [← hyx, ← hfl]
        obtain ⟨hwfc, hplugc, hpairc⟩ := hchild child (List.Mem.head _)
        exact fral_adj_false child ctx (some self) root tgt T hwfc hplugc hpairc y flc hres
    · rw [if_neg hp] at heq
      exact faac_adj restc ctx excludePrev self root tgt T
        (fun u hu => hchild u (List.Mem.tail _ hu)) x fl heq
termination_by ((0 : Nat), sizeOf cs)
decreasing_by
  all_goals simp_wf
  all_goals apply Prod.Lex.right
  all_goals first
  | omega
  | simp <;> omega

end

end Cnoid

namespace Cnoid

lemma ctx_ident_notin_focus (as : List Ctx) : ∀ t : Tree, ZWF t as →
    ((plug t as).preorder).Nodup → ∀ c ∈ as, c.ident ∉ t.preorder := by
  induction as with
  | nil =>
    intro t _ _ c hc
    cases hc
  | cons c rest ih =>
    intro t hwf hnd c' hc'
    have hinf : List.IsInfix t.preorder
        ((Tree.node c.ident c.body c.children).preorder) :=
      List.infix_cons (preorder_infix_forest t c.children hwf.1)
    have hndc : ((Tree.node c.ident c.body c.children).preorder).Nodup :=
      nodup_focus _ rest hwf.2 hnd
    cases hc' with
    | head =>
      have hshape : (Tree.node c.ident c.body c.children).preorder =
          c.ident :: Tree.forestPreorder c.children := rfl
      rw [hshape] at hndc
      intro hmem
      exact (List.nodup_cons.1 hndc).1
        ((preorder_infix_forest t c.children hwf.1).sublist.subset hmem)
    | tail _ hc' =>
      intro hmem
      exact ih (Tree.node c.ident c.body c.children) hwf.2 hnd c' hc'
        (hinf.sublist.subset hmem)

mutual

/-- Completeness of the search below the target: a call with the flag
cleared, an excluded parent outside the subtree and the front link
inside the subtree always finds something. -/
theorem fral_complete_down (t : Tree) (ctx : List Ctx) (p root : Nat)
    (hp : p ∉ t.preorder) (hnd : t.preorder.Nodup) (hroot : root ∈ t.preorder) :
    (findRootAdjacentLink t ctx (some p) root false).1.isSome :=
  match t, hp, hnd, hroot with
  | .node i b cs, hp, hnd, hroot => by
    by_cases hroot0 : i = root
    · rw [fral_eq_root i b cs ctx (some p) root false hroot0]
      simp
    · have hnd' : List.Nodup (i :: Tree.forestPreorder cs) := hnd
      have hroot' : root ∈ Tree.forestPreorder cs := by
        have hroot2 : root ∈ i :: Tree.forestPreorder cs := hroot
        cases hroot2 with
        | head => exact absurd rfl hroot0
        | tail _ h => exact h
      have hsub : ∀ v ∈ cs, v.preorder.Sublist (Tree.forestPreorder cs) := by
        intro v hv
        exact (preorder_infix_forest v cs hv).sublist
      have hexcl : ∀ v ∈ cs, (some p : Option Nat) = some v.ident → root ∉ v.preorder := by
        intro v hv he
        have : p = v.ident := by injection he
        exact absurd (this ▸ (hsub v hv).subset (ident_mem_preorder v))
          (fun hmem => hp (List.Mem.tail _ hmem))
      have hself : ∀ v ∈ cs, i ∉ v.preorder := by
        intro v hv hmem
        exact (List.nodup_cons.1 hnd').1 ((hsub v hv).subset hmem)
      have hcall := faac_complete cs (⟨i, b, cs⟩ :: ctx) (some p) i root
        (List.nodup_cons.1 hnd').2 hroot' hexcl hself
      rcases ctx with _ | ⟨c, restx⟩
      · rw [fral_eq_nil i b cs (some p) root false hroot0]
        exact hcall
      · rw [fral_eq_cons_neg i b cs c restx (some p) root false hroot0 (by simp)]
        exact hcall
termination_by ((0 : Nat), sizeOf t)
decreasing_by
  all_goals simp_wf
  all_goals apply Prod.Lex.right
  all_goals first
  | omega
  | simp <;> omega

/-- Completeness of the child loop below the target. -/
theorem faac_complete (cs : List Tree) (ctx : List Ctx) (excludePrev : Option Nat)
    (self root : Nat) (hnd : (Tree.forestPreorder cs).Nodup)
    (hroot : root ∈ Tree.forestPreorder cs)
    (hexcl : ∀ v ∈ cs, excludePrev = some v.ident → root ∉ v.preorder)
    (hself : ∀ v ∈ cs, self ∉ v.preorder) :
    (findAdjacentAmongChildren cs ctx excludePrev self root).1.isSome :=
  match cs, hnd, hroot, hexcl, hself with
  | [], _, hroot, _, _ => absurd hroot (by simp [Tree.forestPreorder])
  | child :: restc, hnd, hroot, hexcl, hself => by
    have hshape : Tree.forestPreorder (child :: restc) =
        Tree.preorder child ++ Tree.forestPreorder restc := rfl
    have hndc : (Tree.preorder child).Nodup := by
      rw [hshape] at hnd
      exact hnd.of_append_left
    have hndr : (Tree.forestPreorder restc).Nodup := by
      rw [hshape] at hnd
      exact hnd.of_append_right
    rw [faac_eq_cons]
    by_cases hp : excludePrev ≠ some child.ident
    · rw [if_pos hp]
      have hmemsplit := List.mem_append.1 (hshape ▸ hroot)
      rcases hmemsplit with hin | hin
      · have hc := fral_complete_down child ctx self root (hself child (List.Mem.head _))
          hndc hin
        rcases hres : findRootAdjacentLink child ctx (some self) root false with ⟨o, flc⟩
        rw [hres] at hc
        rcases o with _ | y
        · simp at hc
        · simp
      · rcases hres : findRootAdjacentLink child ctx (some self) root false with ⟨o, flc⟩
        rcases o with _ | y
        · exact faac_complete restc ctx excludePrev self root hndr hin
            (fun v hv he => hexcl v (List.Mem.tail _ hv) he)
            (fun v hv => hself v (List.Mem.tail _ hv))
        · simp
    · rw [if_neg hp]
      have hpe : excludePrev = some child.ident := by
        by_contra hc
        exact hp hc
      have hin : root ∈ Tree.forestPreorder restc := by
        have hni := hexcl child (List.Mem.head _) hpe
        have hmemsplit := List.mem_append.1 (hshape ▸ hroot)
        rcases hmemsplit with hin | hin
        · exact absurd hin hni
        · exact hin
      exact faac_complete restc ctx excludePrev self root hndr hin
        (fun v hv he => hexcl v (List.Mem.tail _ hv) he)
        (fun v hv => hself v (List.Mem.tail _ hv))
termination_by ((0 : Nat), sizeOf cs)
decreasing_by
  all_goals simp_wf
  all_goals apply Prod.Lex.right
  all_goals first
  | omega
  | simp <;> omega

end

end Cnoid

namespace Cnoid

/-- Completeness of the root adjacent search from the target: when the
searched front link occurs anywhere in the mechanism tree and the
exclusion constraints of the call are consistent, something is found. -/
theorem fral_complete_up (as : List Ctx) : ∀ (t : Tree) (prev : Option Nat) (root : Nat),
    ZWF t as → ((plug t as).preorder).Nodup →
    (match prev with
      | none => t.ident ≠ root
      | some p => ∃ u ∈ t.children, u.ident = p ∧ root ∉ u.preorder) →
    root ∈ (plug t as).preorder →
    (findRootAdjacentLink t as prev root true).1.isSome := by
  induction as with
  | nil =>
    intro t prev root hwf hnd hprev hroot
    rcases t with ⟨i, b, cs⟩
    by_cases hroot0 : i = root
    · rcases prev with _ | p
      · exact absurd hroot0 hprev
      · rw [fral_eq_root i b cs [] (some p) root true hroot0]
        simp
    · have hnd' : List.Nodup (i :: Tree.forestPreorder cs) := hnd
      have hroot' : root ∈ Tree.forestPreorder cs := by
        have hroot2 : root ∈ i :: Tree.forestPreorder cs := hroot
        cases hroot2 with
        | head => exact absurd rfl hroot0
        | tail _ h => exact h
      have hsub : ∀ v ∈ cs, v.preorder.Sublist (Tree.forestPreorder cs) := by
        intro v hv
        exact (preorder_infix_forest v cs hv).sublist
      have hexcl : ∀ v ∈ cs, prev = some v.ident → root ∉ v.preorder := by
        intro v hv he
        rcases prev with _ | p
        · cases he
        · obtain ⟨u, hu, huid, hur⟩ := hprev
          have hpv : p = v.ident := by injection he
          have huv : u = v := by
            refine mem_pre_inj cs (List.nodup_cons.1 hnd').2 u v hu hv u.ident
              (ident_mem_preorder u) ?_
            rw [huid, hpv]
            exact ident_mem_preorder v
          exact huv ▸ hur
      have hself : ∀ v ∈ cs, i ∉ v.preorder := by
        intro v hv hmem
        exact (List.nodup_cons.1 hnd').1 ((hsub v hv).subset hmem)
      rw [fral_eq_nil i b cs prev root true hroot0]
      exact faac_complete cs [⟨i, b, cs⟩] prev i root
        (List.nodup_cons.1 hnd').2 hroot' hexcl hself
  | cons c rest ih =>
    intro t prev root hwf hnd hprev hroot
    rcases t with ⟨i, b, cs⟩
    have hndT : ((Tree.node i b cs).preorder).Nodup := nodup_focus _ _ hwf hnd
    have hnd' : List.Nodup (i :: Tree.forestPreorder cs) := hndT
    have hcid : c.ident ∉ (Tree.node i b cs).preorder :=
      ctx_ident_notin_focus (c :: rest) (Tree.node i b cs) hwf hnd c (List.Mem.head _)
    by_cases hroot0 : i = root
    · rcases prev with _ | p
      · exact absurd hroot0 hprev
      · rw [fral_eq_root i b cs (c :: rest) (some p) root true hroot0]
        simp
    · have hguard : some c.ident ≠ prev := by
        rcases prev with _ | p
        · simp
        · obtain ⟨u, hu, huid, _⟩ := hprev
          intro he
          have : c.ident = p := by injection he
          apply hcid
          rw [this, ← huid]
          exact List.Mem.tail _
            ((preorder_infix_forest u cs hu).sublist.subset (ident_mem_preorder u))
      rw [fral_eq_cons_pos i b cs c rest prev root true hroot0 ⟨rfl, hguard⟩]
      by_cases hint : root ∈ (Tree.node i b cs).preorder
      · have hroot' : root ∈ Tree.forestPreorder cs := by
          have hroot2 : root ∈ i :: Tree.forestPreorder cs := hint
          cases hroot2 with
          | head => exact absurd rfl hroot0
          | tail _ h => exact h
        have hsub : ∀ v ∈ cs, v.preorder.Sublist (Tree.forestPreorder cs) := by
          intro v hv
          exact (preorder_infix_forest v cs hv).sublist
        have hexcl : ∀ v ∈ cs, prev = some v.ident → root ∉ v.preorder := by
          intro v hv he
          rcases prev with _ | p
          · cases he
          · obtain ⟨u, hu, huid, hur⟩ := hprev
            have hpv : p = v.ident := by injection he
            have huv : u = v := by
              refine mem_pre_inj cs (List.nodup_cons.1 hnd').2 u v hu hv u.ident
                (ident_mem_preorder u) ?_
              rw [huid, hpv]
              exact ident_mem_preorder v
            exact huv ▸ hur
        have hself : ∀ v ∈ cs, i ∉ v.preorder := by
          intro v hv hmem
          exact (List.nodup_cons.1 hnd').1 ((hsub v hv).subset hmem)
        have hcall := faac_complete cs (⟨i, b, cs⟩ :: c :: rest) prev i root
          (List.nodup_cons.1 hnd').2 hroot' hexcl hself
        rcases hres : findRootAdjacentLink (.node c.ident c.body c.children) rest
            (some i) root true with ⟨o, flu⟩
        rcases o with _ | y
        · exact hcall
        · simp
      · have hup := ih (Tree.node c.ident c.body c.children) (some i) root hwf.2 hnd
          ⟨Tree.node i b cs, hwf.1, rfl, hint⟩ hroot
        rcases hres : findRootAdjacentLink (.node c.ident c.body c.children) rest
            (some i) root true with ⟨o, flu⟩
        rw [hres] at hup
        rcases o with _ | y
        · simp at hup
        · simp

/-- Pure upward hit: when the searched front link is one of the
ancestor identifiers of the target, the search returns it through the
ascending chain, with the direction flag still `true`. -/
theorem fral_chain_true (as : List Ctx) : ∀ (t : Tree) (prev : Option Nat) (root : Nat),
    ZWF t as → ((plug t as).preorder).Nodup →
    (match prev with
      | none => True
      | some p => p ∈ t.preorder) →
    root ∈ as.map Ctx.ident →
    ∃ x, findRootAdjacentLink t as prev root true = (some x, true) := by
  induction as with
  | nil =>
    intro t prev root _ _ _ hroot
    simp at hroot
  | cons c rest ih =>
    intro t prev root hwf hnd hprev hroot
    rcases t with ⟨i, b, cs⟩
    have hcid : c.ident ∉ (Tree.node i b cs).preorder :=
      ctx_ident_notin_focus (c :: rest) (Tree.node i b cs) hwf hnd c (List.Mem.head _)
    have hroot0 : ¬ i = root := by
      intro he
      rcases List.mem_map.1 hroot with ⟨c', hc', hcid'⟩
      have hc'notin := ctx_ident_notin_focus (c :: rest) (Tree.node i b cs) hwf hnd c' hc'
      apply hc'notin
      rw [hcid', ← he]
      exact List.Mem.head _
    have hguard : some c.ident ≠ prev := by
      rcases prev with _ | p
      · simp
      · intro he
        have : c.ident = p := by injection he
        exact hcid (this ▸ hprev)
    rw [fral_eq_cons_pos i b cs c rest prev root true hroot0 ⟨rfl, hguard⟩]
    by_cases hcr : c.ident = root
    · rw [fral_eq_root c.ident c.body c.children rest (some i) root true hcr]
      exact ⟨i, rfl⟩
    · have hroot' : root ∈ rest.map Ctx.ident := by
        rcases List.mem_map.1 hroot with ⟨c', hc', hcid'⟩
        cases hc' with
        | head => exact absurd hcid' hcr
        | tail _ hc' => exact List.mem_map.2 ⟨c', hc', hcid'⟩
      have hprev' : i ∈ (Tree.node c.ident c.body c.children).preorder :=
        List.Mem.tail _
          ((preorder_infix_forest (Tree.node i b cs) c.children hwf.1).sublist.subset
            (ident_mem_preorder (Tree.node i b cs)))
      obtain ⟨x, hx⟩ := ih (Tree.node c.ident c.body c.children) (some i) root
        hwf.2 hnd hprev' hroot'
      rw [hx]
      exact ⟨x, rfl⟩

end Cnoid

/-!
Nesting of subtrees and the characterisation of the subtrees containing
the focused link (used by C9).
-/

namespace Cnoid

/-- A subtree containing the identifier of the root of a tree with no
duplicate identifiers is the whole tree. -/
theorem subtree_root_eq (u t : Tree) (hs : SubtreeOf u t) (hnd : t.preorder.Nodup)
    (hmem : t.ident ∈ u.preorder) : u = t := by
  rcases t with ⟨i, b, cs⟩
  have hs2 : u = Tree.node i b cs ∨ SubtreeOfForest u cs := hs
  rcases hs2 with he | hf
  · exact he
  · obtain ⟨v, hv, huv⟩ := exists_mem_of_subtreeForest u cs hf
    have hmem2 : i ∈ u.preorder := hmem
    have hi : i ∈ Tree.forestPreorder cs :=
      (preorder_infix_forest v cs hv).sublist.subset
        ((preorder_infix_of_subtree u v huv).sublist.subset hmem2)
    have hnd2 : List.Nodup (i :: Tree.forestPreorder cs) := hnd
    exact absurd hi (List.nodup_cons.1 hnd2).1

/-- Two subtrees of a tree with no duplicate identifiers that share an
identifier are nested. -/
theorem subtrees_nested (T : Tree) (hnd : T.preorder.Nodup) (u w : Tree)
    (hu : SubtreeOf u T) (hw : SubtreeOf w T) (x : Nat)
    (hxu : x ∈ u.preorder) (hxw : x ∈ w.preorder) :
    SubtreeOf u w ∨ SubtreeOf w u :=
  match T, hnd, hu, hw with
  | .node i b cs, hnd, hu, hw => by
    have hu2 : u = Tree.node i b cs ∨ SubtreeOfForest u cs := hu
    have hw2 : w = Tree.node i b cs ∨ SubtreeOfForest w cs := hw
    rcases hu2 with hue | huf
    · subst hue
      exact Or.inr hw
    · rcases hw2 with hwe | hwf2
      · subst hwe
        exact Or.inl hu
      · obtain ⟨vu, hvu, huvu⟩ := exists_mem_of_subtreeForest u cs huf
        obtain ⟨vw, hvw, hwvw⟩ := exists_mem_of_subtreeForest w cs hwf2
        have hnd2 : List.Nodup (i :: Tree.forestPreorder cs) := hnd
        have hndf := (List.nodup_cons.1 hnd2).2
        have hxvu : x ∈ vu.preorder :=
          (preorder_infix_of_subtree u vu huvu).sublist.subset hxu
        have hxvw : x ∈ vw.preorder :=
          (preorder_infix_of_subtree w vw hwvw).sublist.subset hxw
        have hv : vu = vw := mem_pre_inj cs hndf vu vw hvu hvw x hxvu hxvw
        have hwvu : SubtreeOf w vu := by
          rw [hv]
          exact hwvw
        have hndvu : vu.preorder.Nodup :=
          hndf.sublist (preorder_infix_forest vu cs hvu).sublist
        exact subtrees_nested vu hndvu u w huvu hwvu x hxu hxw
termination_by sizeOf T
decreasing_by
  simp_wf
  have := List.sizeOf_lt_of_mem hvu
  omega

/-- A subtree of the mechanism that contains the focused link as a
subtree is rooted either at the focused link itself or at one of its
ancestor contexts. -/
theorem containing_ident (as : List Ctx) : ∀ t u : Tree, ZWF t as →
    ((plug t as).preorder).Nodup → SubtreeOf u (plug t as) → SubtreeOf t u →
    u.ident = t.ident ∨ u.ident ∈ as.map Ctx.ident := by
  induction as with
  | nil =>
    intro t u _ hnd hu htu
    left
    rw [subtree_root_eq u t hu hnd (ident_mem_of_subtree t u htu)]
  | cons c rest ih =>
    intro t u hwf hnd hu htu
    have hndT : ((plug (Tree.node c.ident c.body c.children) rest).preorder).Nodup := hnd
    have hsub2 : SubtreeOf (Tree.node c.ident c.body c.children) (plug t (c :: rest)) :=
      zwf_subtree (Tree.node c.ident c.body c.children) rest hwf.2
    have hmemt : t.ident ∈ u.preorder := ident_mem_of_subtree t u htu
    have hmemt2 : t.ident ∈ (Tree.node c.ident c.body c.children).preorder :=
      List.Mem.tail _
        ((preorder_infix_forest t c.children hwf.1).sublist.subset (ident_mem_preorder t))
    have hnest := subtrees_nested (plug t (c :: rest)) hnd u
      (Tree.node c.ident c.body c.children) hu hsub2 t.ident hmemt hmemt2
    rcases hnest with hup | hpu
    · have hup2 : u = Tree.node c.ident c.body c.children ∨
          SubtreeOfForest u c.children := hup
      rcases hup2 with he | hf
      · right
        rw [he]
        exact List.Mem.head _
      · obtain ⟨v, hv, huv⟩ := exists_mem_of_subtreeForest u c.children hf
        have hndp : ((Tree.node c.ident c.body c.children).preorder).Nodup :=
          nodup_focus (Tree.node c.ident c.body c.children) rest hwf.2 hnd
        have hndf : (Tree.forestPreorder c.children).Nodup :=
          (List.nodup_cons.1 hndp).2
        have hvt : v = t := by
          refine mem_pre_inj c.children hndf v t hv hwf.1 t.ident ?_ (ident_mem_preorder t)
          exact (preorder_infix_of_subtree u v huv).sublist.subset hmemt
        have hut : SubtreeOf u t := hvt ▸ huv
        have hndt : t.preorder.Nodup := nodup_focus t (c :: rest) hwf hnd
        left
        rw [subtree_root_eq u t hut hndt hmemt]
    · have hres := ih (Tree.node c.ident c.body c.children) u hwf.2 hndT hu hpu
      right
      rcases hres with he | hm
      · rw [he]
        exact List.Mem.head _
      · exact List.Mem.tail _ hm

/-- Any subtree of the mechanism whose preorder listing contains the
identifier of the focused link is rooted either at the focused link or
at one of its ancestor contexts. -/
theorem focus_container_ident (as : List Ctx) (t u : Tree) (hwf : ZWF t as)
    (hnd : ((plug t as).preorder).Nodup) (hu : SubtreeOf u (plug t as))
    (hmem : t.ident ∈ u.preorder) :
    u.ident = t.ident ∨ u.ident ∈ as.map Ctx.ident := by
  have ht : SubtreeOf t (plug t as) := zwf_subtree t as hwf
  have hnest := subtrees_nested (plug t as) hnd u t hu ht t.ident hmem
    (ident_mem_preorder t)
  rcases hnest with hut | htu
  · left
    rw [subtree_root_eq u t hut (nodup_focus t as hwf hnd) hmem]
  · exact containing_ident as t u hwf hnd hu htu

end Cnoid

namespace Cnoid

/-- C9: on a tree structured mechanism with distinct identifiers,
`prependRootAdjacentLinkToward` returns no link and leaves the state
unchanged when the traversal is empty, when the target link is the
current front entry, and when the front entry does not occur in the
mechanism tree; when the front occurs in the tree and differs from the
target, a link is found; every found link `x` is inserted at index 0
and the upward counter is incremented exactly when the direction flag
comes back `true`; the flag is `true` exactly on an upward edge: when
`true`, `x` is a child of the front whose subtree contains the target,
and when `false`, `x` is the parent of the front and the target lies
outside every subtree rooted at the front. -/
theorem c9_prepend_root_adjacent (st : TravState) (t : Tree) (as : List Ctx)
    (T : Tree) (hwf : ZWF t as) (hplug : plug t as = T)
    (hnd : T.preorder.Nodup) :
    (st.links_ = [] → prependRootAdjacentLinkToward st t as = (none, st))
    ∧ ∀ front rest, st.links_ = front :: rest →
        ((t.ident = front → prependRootAdjacentLinkToward st t as = (none, st))
        ∧ (front ∈ T.preorder → t.ident ≠ front →
            (prependRootAdjacentLinkToward st t as).1.isSome)
        ∧ (front ∉ T.preorder → prependRootAdjacentLinkToward st t as = (none, st))
        ∧ ∀ x fl, findRootAdjacentLink t as none front true = (some x, fl) →
            prependRootAdjacentLinkToward st t as =
              (some x, ⟨x :: st.links_,
                if fl = true then st.numUpwardConnections + 1
                else st.numUpwardConnections⟩)
            ∧ (fl = true → ∃ u : Tree, SubtreeOf u T ∧ u.ident = x
                ∧ (front, x) ∈ childPairs T ∧ t.ident ∈ u.preorder)
            ∧ (fl = false → (x, front) ∈ childPairs T
                ∧ ∀ u : Tree, SubtreeOf u T → u.ident = front →
                    t.ident ∉ u.preorder)) := by
  have hndp : ((plug t as).preorder).Nodup := by
    rw [hplug]
    exact hnd
  obtain ⟨ls, U⟩ := st
  constructor
  · intro h
    simp only at h
    subst h
    rfl
  · intro front rest hls
    simp only at hls
    subst hls
    refine ⟨?_, ?_, ?_, ?_⟩
    · intro he
      rcases t with ⟨i, b, cs⟩
      have he2 : i = front := he
      simp [prependRootAdjacentLinkToward,
        fral_eq_root i b cs as none front true he2]
    · intro hmem hne
      have hcomp := fral_complete_up as t none front hwf hndp hne
        (by rw [hplug]; exact hmem)
      rcases hres : findRootAdjacentLink t as none front true with ⟨o, fl⟩
      rw [hres] at hcomp
      rcases o with _ | y
      · simp at hcomp
      · simp [prependRootAdjacentLinkToward, hres]
    · intro hnm
      rcases hres : findRootAdjacentLink t as none front true with ⟨o, fl⟩
      rcases o with _ | y
      · simp [prependRootAdjacentLinkToward, hres]
      · have hadj := fral_adj_true t as none front t.ident T hwf hplug
          (ident_mem_preorder t) trivial y fl hres
        rcases fl with _ | _
        · exact absurd (childPairs_mem_preorder T (y, front) (hadj.2 rfl)).2 hnm
        · obtain ⟨u, _, _, hedge, _⟩ := hadj.1 rfl
          exact absurd (childPairs_mem_preorder T (front, y) hedge).1 hnm
    · intro x fl heq
      have hadj := fral_adj_true t as none front t.ident T hwf hplug
        (ident_mem_preorder t) trivial x fl heq
      refine ⟨?_, hadj.1, ?_⟩
      · simp [prependRootAdjacentLinkToward, heq]
      · intro hfl
        refine ⟨hadj.2 hfl, ?_⟩
        intro u hsubu huid hmemu
        have hsubu2 : SubtreeOf u (plug t as) := by
          rw [hplug]
          exact hsubu
        have hcont := focus_container_ident as t u hwf hndp hsubu2 hmemu
        rcases hcont with hid | hanc
        · rcases t with ⟨i, b, cs⟩
          have hif : i = front := by
            rw [← huid, hid]
            rfl
          rw [fral_eq_root i b cs as none front true hif] at heq
          simp at heq
        · have hfront : front ∈ as.map Ctx.ident := by
            rw [← huid]
            exact hanc
          obtain ⟨y, hy⟩ := fral_chain_true as t none front hwf hndp trivial hfront
          rw [heq] at hy
          have hflt : fl = true := congrArg Prod.snd hy
          rw [hfl] at hflt
          exact absurd hflt (by simp)

end Cnoid

namespace Cnoid

/-- Witness for C9 on a two link mechanism: the target link is the
child, the traversal holds only the root, and the child is prepended
with the upward counter incremented. -/
theorem c9_prepend_root_adjacent_witness :
    prependRootAdjacentLinkToward ⟨[0], 0⟩ (Tree.node 1 0 [])
        [⟨0, 0, [Tree.node 1 0 []]⟩] =
      (some 1, ⟨[1, 0], 1⟩)
    ∧ ∃ u : Tree, SubtreeOf u (Tree.node 0 0 [Tree.node 1 0 []]) ∧ u.ident = 1
        ∧ (0, 1) ∈ childPairs (Tree.node 0 0 [Tree.node 1 0 []])
        ∧ (1 : Nat) ∈ u.preorder := by
  have heq : findRootAdjacentLink (Tree.node 1 0 [])
      [⟨0, 0, [Tree.node 1 0 []]⟩] none 0 true = (some 1, true) := by
    rw [fral_eq_cons_pos 1 0 [] ⟨0, 0, [Tree.node 1 0 []]⟩ [] none 0 true
      (by decide) ⟨rfl, by decide⟩]
    rw [fral_eq_root 0 0 [Tree.node 1 0 []] [] (some 1) 0 true rfl]
  have h := c9_prepend_root_adjacent ⟨[0], 0⟩ (Tree.node 1 0 [])
    [⟨0, 0, [Tree.node 1 0 []]⟩] (Tree.node 0 0 [Tree.node 1 0 []])
    ⟨List.Mem.head _, trivial⟩ rfl (by decide)
  have h2 := (h.2 0 [] rfl).2.2.2 1 true heq
  refine ⟨?_, h2.2.1 rfl⟩
  rw [h2.1]
  decide

end Cnoid
